import Mathlib

/-!
Verification development for the fhir-package-explorer repository.

JavaScript strings are modelled as lists of characters (`Str`); all string
operations used by the source (includes, split, concatenation, comparison)
are given explicit executable definitions matching the JavaScript semantics
on the inputs the code handles.
-/

set_option maxHeartbeats 1000000

/-- JavaScript strings, modelled as lists of characters. -/
abbrev Str := List Char

/-- Turn a Lean string literal into a `Str`. -/
def lit (s : String) : Str := s.toList

/-- Lexicographic comparison of strings by code unit, the semantics of the
JavaScript less-than operator on strings. -/
def strLt : Str → Str → Bool
  | [], [] => false
  | [], _ :: _ => true
  | _ :: _, [] => false
  | a :: as, b :: bs => if a < b then true else if b < a then false else strLt as bs

theorem strLt_irrefl (s : Str) : strLt s s = false := by
  induction s with
  | nil => rfl
  | cons a as ih => simp [strLt, ih]

theorem strLt_trans {a b c : Str} (h₁ : strLt a b = true) (h₂ : strLt b c = true) :
    strLt a c = true := by
  induction a generalizing b c with
  | nil =>
    cases c with
    | nil =>
      cases b with
      | nil => exact h₁
      | cons y ys => simp [strLt] at h₂
    | cons z zs => simp [strLt]
  | cons x xs ih =>
    cases b with
    | nil => simp [strLt] at h₁
    | cons y ys =>
      cases c with
      | nil => simp [strLt] at h₂
      | cons z zs =>
        simp only [strLt] at h₁ h₂ ⊢
        rcases lt_trichotomy x y with hxy | hxy | hxy
        · rcases lt_trichotomy y z with hyz | hyz | hyz
          · simp [lt_trans hxy hyz]
          · subst hyz; simp [hxy]
          · rw [if_neg (lt_asymm hyz), if_pos hyz] at h₂
            exact absurd h₂ (by simp)
        · subst hxy
          rw [if_neg (lt_irrefl x), if_neg (lt_irrefl x)] at h₁
          rcases lt_trichotomy x z with hxz | hxz | hxz
          · simp [hxz]
          · subst hxz
            rw [if_neg (lt_irrefl x), if_neg (lt_irrefl x)] at h₂ ⊢
            exact ih h₁ h₂
          · rw [if_neg (lt_asymm hxz), if_pos hxz] at h₂
            exact absurd h₂ (by simp)
        · rw [if_neg (lt_asymm hxy), if_pos hxy] at h₁
          exact absurd h₁ (by simp)

theorem strLt_conn {a b : Str} (h : a ≠ b) : strLt a b = true ∨ strLt b a = true := by
  induction a generalizing b with
  | nil =>
    cases b with
    | nil => exact absurd rfl h
    | cons y ys => left; simp [strLt]
  | cons x xs ih =>
    cases b with
    | nil => right; simp [strLt]
    | cons y ys =>
      rcases lt_trichotomy x y with hxy | hxy | hxy
      · left; simp [strLt, hxy]
      · subst hxy
        have hne : xs ≠ ys := by
          intro hh; exact h (by rw [hh])
        rcases ih hne with hlt | hlt
        · left; simp [strLt, lt_irrefl, hlt]
        · right; simp [strLt, lt_irrefl, hlt]
      · right; simp [strLt, hxy]

theorem strLt_asymm {a b : Str} (h : strLt a b = true) : strLt b a = false := by
  by_contra hc
  have hba : strLt b a = true := by
    cases hab : strLt b a with
    | false => exact absurd hab hc
    | true => rfl
  have := strLt_trans h hba
  rw [strLt_irrefl] at this
  exact Bool.noConfusion this

/-- Split a list of characters at every occurrence of the separator
character, the semantics of JavaScript String.prototype.split with a
single-character separator.  The result is always non-empty. -/
def splitOnChar (c : Char) : Str → List Str
  | [] => [[]]
  | x :: xs =>
    if x = c then [] :: splitOnChar c xs
    else
      match splitOnChar c xs with
      | [] => [[x]]
      | s :: rest => (x :: s) :: rest

theorem splitOnChar_ne_nil (c : Char) (s : Str) : splitOnChar c s ≠ [] := by
  cases s with
  | nil => simp [splitOnChar]
  | cons x xs =>
    simp only [splitOnChar]
    split
    · simp
    · split
      · simp
      · simp

theorem splitOnChar_of_not_mem {c : Char} {s : Str} (h : c ∉ s) :
    splitOnChar c s = [s] := by
  induction s with
  | nil => rfl
  | cons x xs ih =>
    have hx : x ≠ c := by
      intro hh; exact h (hh ▸ List.mem_cons_self x xs)
    have hxs : c ∉ xs := fun hh => h (List.mem_cons_of_mem x hh)
    simp only [splitOnChar, if_neg hx, ih hxs]

theorem splitOnChar_append {c : Char} {a : Str} (b : Str) (h : c ∉ a) :
    splitOnChar c (a ++ c :: b) = a :: splitOnChar c b := by
  induction a with
  | nil => simp [splitOnChar]
  | cons x xs ih =>
    have hx : x ≠ c := by
      intro hh; exact h (hh ▸ List.mem_cons_self x xs)
    have hxs : c ∉ xs := fun hh => h (List.mem_cons_of_mem x hh)
    show splitOnChar c (x :: (xs ++ c :: b)) = (x :: xs) :: splitOnChar c b
    simp only [splitOnChar, if_neg hx]
    rw [ih hxs]

theorem mem_append_cons (c : Char) (a b : Str) : c ∈ a ++ c :: b := by
  simp

/-- A package identifier: a name and a version, both opaque strings. -/
structure Pkg where
  id : Str
  version : Str
deriving DecidableEq

/-- The composite key used throughout the source to identify a package,
the template literal id#version. -/
def pkgKey (p : Pkg) : Str := p.id ++ '#' :: p.version

/-- The sort key used by sortPackages, the template literal id@version. -/
def atKey (p : Pkg) : Str := p.id ++ '@' :: p.version

/-- Reconstruction of a package object from a key, as done in _loadContext:
const [id, version] = key.split('#').  When the key contains no '#' the
JavaScript destructuring leaves version undefined; that case never arises
for keys produced by pkgKey and is modelled with an empty version. -/
def splitKeyPkg (k : Str) : Pkg :=
  match splitOnChar '#' k with
  | [] => ⟨[], []⟩
  | [i] => ⟨i, []⟩
  | i :: v :: _ => ⟨i, v⟩

/-- A package free of the '#' separator in both fields, so that pkgKey is
injective on it and splitKeyPkg inverts pkgKey. -/
def CleanPkg (p : Pkg) : Prop := '#' ∉ p.id ∧ '#' ∉ p.version

instance : DecidablePred CleanPkg := fun p => by
  unfold CleanPkg; infer_instance

theorem splitKeyPkg_pkgKey {p : Pkg} (h : CleanPkg p) : splitKeyPkg (pkgKey p) = p := by
  rcases h with ⟨h1, h2⟩
  unfold splitKeyPkg pkgKey
  rw [splitOnChar_append _ h1, splitOnChar_of_not_mem h2]

theorem pkgKey_inj {p q : Pkg} (hp : CleanPkg p) (hq : CleanPkg q)
    (h : pkgKey p = pkgKey q) : p = q := by
  have := splitKeyPkg_pkgKey hp
  rw [h, splitKeyPkg_pkgKey hq] at this
  exact this.symm

/-!
Model of Array.prototype.sort with a comparator.  ECMAScript guarantees a
stable comparison sort; insertion sort is one such sort.  The comparator le
is the boolean test comparator-result-at-most-zero.
-/

/-- Insert an element into a list, placing it before the first element it
compares at-most-equal to. -/
def insertSorted (le : α → α → Bool) (a : α) : List α → List α
  | [] => [a]
  | b :: t => if le a b then a :: b :: t else b :: insertSorted le a t

/-- Stable comparison sort (insertion sort), the model of the JavaScript
sort used by the source. -/
def jsSort (le : α → α → Bool) : List α → List α
  | [] => []
  | a :: t => insertSorted le a (jsSort le t)

theorem insertSorted_perm (le : α → α → Bool) (a : α) (l : List α) :
    List.Perm (insertSorted le a l) (a :: l) := by
  induction l with
  | nil => simp [insertSorted]
  | cons b t ih =>
    simp only [insertSorted]
    split
    · exact List.Perm.refl _
    · exact List.Perm.trans (List.Perm.cons b ih) (List.Perm.swap a b t)

theorem jsSort_perm (le : α → α → Bool) (l : List α) :
    List.Perm (jsSort le l) l := by
  induction l with
  | nil => simp [jsSort]
  | cons a t ih =>
    exact List.Perm.trans (insertSorted_perm le a (jsSort le t)) (List.Perm.cons a ih)

theorem jsSort_mem (le : α → α → Bool) (l : List α) (x : α) :
    x ∈ jsSort le l ↔ x ∈ l :=
  (jsSort_perm le l).mem_iff

theorem insertSorted_pairwise {le : α → α → Bool} {a : α} {l : List α}
    (hp : List.Pairwise (fun x y => le x y = true) l)
    (htot : ∀ b ∈ l, le a b = true ∨ le b a = true)
    (htrans : ∀ x ∈ a :: l, ∀ y ∈ a :: l, ∀ z ∈ a :: l,
      le x y = true → le y z = true → le x z = true) :
    List.Pairwise (fun x y => le x y = true) (insertSorted le a l) := by
  induction l with
  | nil => simp [insertSorted]
  | cons b t ih =>
    simp only [insertSorted]
    rcases hp with _ | ⟨hb, hp⟩
    split
    · rename_i hab
      refine List.Pairwise.cons ?_ (List.Pairwise.cons hb hp)
      intro x hx
      rcases List.mem_cons.mp hx with hx | hx
      · subst hx; exact hab
      · exact htrans a (List.mem_cons_self _ _) b (by simp) x (by simp [hx]) hab (hb x hx)
    · rename_i hab
      have hba : le b a = true := by
        rcases htot b (List.mem_cons_self b t) with h | h
        · exact absurd h (by simp_all)
        · exact h
      refine List.Pairwise.cons ?_ ?_
      · intro x hx
        have hx2 := (insertSorted_perm le a t).mem_iff.mp hx
        rcases List.mem_cons.mp hx2 with hx3 | hx3
        · subst hx3; exact hba
        · exact hb x hx3
      · exact ih hp (fun c hc => htot c (List.mem_cons_of_mem b hc))
          (fun x hx y hy z hz =>
            htrans x (by rcases List.mem_cons.mp hx with h | h <;> simp [h])
              y (by rcases List.mem_cons.mp hy with h | h <;> simp [h])
              z (by rcases List.mem_cons.mp hz with h | h <;> simp [h]))

theorem jsSort_pairwise {le : α → α → Bool} {l : List α}
    (htot : ∀ a ∈ l, ∀ b ∈ l, le a b = true ∨ le b a = true)
    (htrans : ∀ a ∈ l, ∀ b ∈ l, ∀ c ∈ l, le a b = true → le b c = true → le a c = true) :
    List.Pairwise (fun x y => le x y = true) (jsSort le l) := by
  induction l with
  | nil => simp [jsSort]
  | cons a t ih =>
    have hmem : ∀ x ∈ jsSort le t, x ∈ a :: t := fun x hx =>
      List.mem_cons_of_mem a ((jsSort_perm le t).mem_iff.mp hx)
    have hmem2 : ∀ x ∈ a :: jsSort le t, x ∈ a :: t := by
      intro x hx
      rcases List.mem_cons.mp hx with hx | hx
      · simp [hx]
      · exact hmem x hx
    exact insertSorted_pairwise
      (ih (fun x hx y hy => htot x (List.mem_cons_of_mem a hx) y (List.mem_cons_of_mem a hy))
          (fun x hx y hy z hz => htrans x (List.mem_cons_of_mem a hx)
            y (List.mem_cons_of_mem a hy) z (List.mem_cons_of_mem a hz)))
      (fun b hb => htot a (List.mem_cons_self a t) b (hmem b hb))
      (fun x hx y hy z hz => htrans x (hmem2 x hx) y (hmem2 y hy) z (hmem2 z hz))

/-- sortPackages (src/utils.ts): sorts by the concatenated template literal
id@version, comparing as JavaScript strings.  The boolean relation holds
when the comparator result is at most zero. -/
def sortPackagesLe (a b : Pkg) : Bool := !(strLt (atKey b) (atKey a))

/-- sortPackages (src/utils.ts). -/
def sortPackages (arr : List Pkg) : List Pkg := jsSort sortPackagesLe arr

/-- A package reference as accepted by the public API: either a string
shorthand or a package identifier object. -/
inductive PkgRef where
  | str (s : Str)
  | obj (p : Pkg)
deriving DecidableEq

/-- JavaScript truthiness of a package reference: an absent value and the
empty string are falsy, objects are truthy. -/
def truthyRef : Option PkgRef → Bool
  | none => false
  | some (.str s) => !s.isEmpty
  | some (.obj _) => true

/-- A file index entry stamped with its owning package
(FileIndexEntryWithPkg in src/types.ts).  Fields that a package index may
omit are options; filename and the stamped package identity are always
present. -/
structure Entry where
  pkgId : Str
  pkgVersion : Str
  filename : Str
  resourceType : Option Str
  id : Option Str
  url : Option Str
  name : Option Str
  version : Option Str
  kind : Option Str
  type : Option Str
  derivation : Option Str
  content : Option Str
deriving DecidableEq

/-- A lookup filter (LookupFilter in src/types.ts): a partial set of entry
field constraints plus an optional package scope. -/
structure LookupFilter where
  resourceType : Option Str := none
  id : Option Str := none
  url : Option Str := none
  name : Option Str := none
  version : Option Str := none
  filename : Option Str := none
  kind : Option Str := none
  type : Option Str := none
  derivation : Option Str := none
  content : Option Str := none
  package : Option PkgRef := none
deriving DecidableEq

/-- JavaScript destructuring const left-right of String.split on a pipe:
the first two segments.  The second is undefined when there is only one
segment. -/
def jsSplitPipe (s : Str) : Str × Option Str :=
  match splitOnChar '|' s with
  | [] => ([], none)
  | [l] => (l, none)
  | l :: r :: _ => (l, some r)

/-- Helper for normalizePipedFilter: handle the id field (checked last). -/
def normPipeId (f : LookupFilter) : LookupFilter :=
  match f.id with
  | some v =>
    if '|' ∈ v then { f with id := some (jsSplitPipe v).1, version := (jsSplitPipe v).2 }
    else f
  | none => f

/-- Helper for normalizePipedFilter: handle the name field, falling through
to the id field. -/
def normPipeName (f : LookupFilter) : LookupFilter :=
  match f.name with
  | some v =>
    if '|' ∈ v then { f with name := some (jsSplitPipe v).1, version := (jsSplitPipe v).2 }
    else normPipeId f
  | none => normPipeId f

/-- normalizePipedFilter (src/utils.ts): the first of url, name, id whose
string value contains a pipe is split at the pipe; the part before replaces
the field, the part after becomes the version; the loop then breaks. -/
def normalizePipedFilter (f : LookupFilter) : LookupFilter :=
  match f.url with
  | some v =>
    if '|' ∈ v then { f with url := some (jsSplitPipe v).1, version := (jsSplitPipe v).2 }
    else normPipeName f
  | none => normPipeName f

/-- One field comparison step of matchesFilter: when the filter carries a
value, the entry must carry a strictly equal value. -/
def optMatch (fv ev : Option Str) : Bool :=
  match fv with
  | none => true
  | some v => ev == some v

/-- matchesFilter (src/utils.ts): every key of the filter other than
package must be present on the entry with a strictly equal value. -/
def matchesFilter (e : Entry) (f : LookupFilter) : Bool :=
  optMatch f.resourceType e.resourceType &&
  optMatch f.id e.id &&
  optMatch f.url e.url &&
  optMatch f.name e.name &&
  optMatch f.version e.version &&
  (match f.filename with
   | none => true
   | some v => e.filename == v) &&
  optMatch f.kind e.kind &&
  optMatch f.type e.type &&
  optMatch f.derivation e.derivation &&
  optMatch f.content e.content

/-- The matching contract stated by the specification: an entry matches a
filter iff every filter field other than package is present on the entry
with an exactly equal value. -/
def MatchesSpec (e : Entry) (f : LookupFilter) : Prop :=
  (∀ v, f.resourceType = some v → e.resourceType = some v) ∧
  (∀ v, f.id = some v → e.id = some v) ∧
  (∀ v, f.url = some v → e.url = some v) ∧
  (∀ v, f.name = some v → e.name = some v) ∧
  (∀ v, f.version = some v → e.version = some v) ∧
  (∀ v, f.filename = some v → e.filename = v) ∧
  (∀ v, f.kind = some v → e.kind = some v) ∧
  (∀ v, f.type = some v → e.type = some v) ∧
  (∀ v, f.derivation = some v → e.derivation = some v) ∧
  (∀ v, f.content = some v → e.content = some v)

/-- JavaScript truthiness of an optional string field: absent and empty
are falsy. -/
def truthy : Option Str → Bool
  | none => false
  | some s => !s.isEmpty

/-- Value of an optional field as used inside a template literal; only
ever evaluated under a truthiness guard. -/
def ov (o : Option Str) : Str := o.getD []

/-- The fields that getAllFastIndexKeys destructures from its argument.
The function is applied both to stamped index entries and (through a type
cast) to lookup filters, which lack the package stamp; the stamp fields
are therefore optional here. -/
structure KeySource where
  pkgId : Option Str
  pkgVersion : Option Str
  resourceType : Option Str
  url : Option Str
  id : Option Str
  name : Option Str
  version : Option Str
  derivation : Option Str

/-- View of a stamped entry as a key source. -/
def entryKeySource (e : Entry) : KeySource :=
  ⟨some e.pkgId, some e.pkgVersion, e.resourceType, e.url, e.id, e.name, e.version, e.derivation⟩

/-- View of a filter as a key source, modelling the cast of the normalized
filter to an index entry in lookupMeta: the package stamp fields are
absent. -/
def filterKeySource (f : LookupFilter) : KeySource :=
  ⟨none, none, f.resourceType, f.url, f.id, f.name, f.version, f.derivation⟩

/-- getAllFastIndexKeys (src/utils.ts): the composite keys under which an
entry is registered in the fast index, in decreasing selectivity order.
Each conjunction of truthy fields contributes its template literal. -/
def getAllFastIndexKeys (s : KeySource) : List Str :=
  (if truthy s.pkgId && truthy s.pkgVersion && truthy s.resourceType && truthy s.id && truthy s.derivation
   then [lit "pkg:" ++ ov s.pkgId ++ lit "#" ++ ov s.pkgVersion ++ lit "|resourceType:" ++ ov s.resourceType ++ lit "|id:" ++ ov s.id ++ lit "|derivation:" ++ ov s.derivation] else []) ++
  (if truthy s.pkgId && truthy s.pkgVersion && truthy s.resourceType && truthy s.url
   then [lit "pkg:" ++ ov s.pkgId ++ lit "#" ++ ov s.pkgVersion ++ lit "|resourceType:" ++ ov s.resourceType ++ lit "|url:" ++ ov s.url] else []) ++
  (if truthy s.resourceType && truthy s.url && truthy s.version
   then [lit "resourceType:" ++ ov s.resourceType ++ lit "|url:" ++ ov s.url ++ lit "|version:" ++ ov s.version] else []) ++
  (if truthy s.resourceType && truthy s.url
   then [lit "resourceType:" ++ ov s.resourceType ++ lit "|url:" ++ ov s.url] else []) ++
  (if truthy s.url && truthy s.version
   then [lit "url:" ++ ov s.url ++ lit "|version:" ++ ov s.version] else []) ++
  (if truthy s.url then [lit "url:" ++ ov s.url] else []) ++
  (if truthy s.resourceType && truthy s.name && truthy s.version
   then [lit "resourceType:" ++ ov s.resourceType ++ lit "|name:" ++ ov s.name ++ lit "|version:" ++ ov s.version] else []) ++
  (if truthy s.resourceType && truthy s.id && truthy s.version
   then [lit "resourceType:" ++ ov s.resourceType ++ lit "|id:" ++ ov s.id ++ lit "|version:" ++ ov s.version] else []) ++
  (if truthy s.resourceType && truthy s.name
   then [lit "resourceType:" ++ ov s.resourceType ++ lit "|name:" ++ ov s.name] else []) ++
  (if truthy s.resourceType && truthy s.id
   then [lit "resourceType:" ++ ov s.resourceType ++ lit "|id:" ++ ov s.id] else [])

/-!
Association maps with string keys, modelling JavaScript Map objects and
the bounded caches (eviction is not modelled: the caches are treated as
maps that only grow, matching their use below the configured bounds).
-/

/-- Lookup in an association map. -/
def getA : List (Str × α) → Str → Option α
  | [], _ => none
  | (k', v') :: t, k => if k' = k then some v' else getA t k

/-- Insert-or-replace in an association map, preserving first-insertion
order like a JavaScript Map. -/
def setA : List (Str × α) → Str → α → List (Str × α)
  | [], k, v => [(k, v)]
  | (k', v') :: t, k, v => if k' = k then (k, v) :: t else (k', v') :: setA t k v

/-- Insert only when the key is absent, the resultMap discipline of
lookupMeta. -/
def setIfAbsent (m : List (Str × α)) (k : Str) (v : α) : List (Str × α) :=
  match getA m k with
  | some _ => m
  | none => setA m k v

/-- The values of an association map in insertion order. -/
def valuesA (m : List (Str × α)) : List α := m.map Prod.snd

theorem getA_setA_self (m : List (Str × α)) (k : Str) (v : α) :
    getA (setA m k v) k = some v := by
  induction m with
  | nil => simp [setA, getA]
  | cons p t ih =>
    obtain ⟨k', v'⟩ := p
    by_cases h : k' = k
    · simp [setA, h, getA]
    · simp [setA, h, getA, ih]

theorem getA_setA_ne (m : List (Str × α)) {k k2 : Str} (v : α) (h : k ≠ k2) :
    getA (setA m k v) k2 = getA m k2 := by
  induction m with
  | nil => simp [setA, getA, h]
  | cons p t ih =>
    obtain ⟨k', v'⟩ := p
    by_cases hk : k' = k
    · subst hk; simp [setA, getA, h]
    · simp [setA, hk, getA, ih]

theorem setA_of_absent {m : List (Str × α)} {k : Str} (v : α) (h : getA m k = none) :
    setA m k v = m ++ [(k, v)] := by
  induction m with
  | nil => simp [setA]
  | cons p t ih =>
    obtain ⟨k2, v2⟩ := p
    by_cases hk : k2 = k
    · simp [getA, hk] at h
    · simp only [getA, if_neg hk] at h
      simp [setA, hk, ih h]

theorem setIfAbsent_of_absent {m : List (Str × α)} {k : Str} (v : α) (h : getA m k = none) :
    setIfAbsent m k v = m ++ [(k, v)] := by
  simp [setIfAbsent, h, setA_of_absent v h]

theorem setIfAbsent_of_present {m : List (Str × α)} {k : Str} {w : α} (v : α)
    (h : getA m k = some w) : setIfAbsent m k v = m := by
  simp [setIfAbsent, h]

theorem mem_valuesA_setIfAbsent (m : List (Str × α)) (k : Str) (v : α) (x : α)
    (hx : x ∈ valuesA m) : x ∈ valuesA (setIfAbsent m k v) := by
  cases h : getA m k with
  | none =>
    rw [setIfAbsent_of_absent v h]
    unfold valuesA at hx ⊢
    rw [List.map_append]
    exact List.mem_append_left _ hx
  | some w =>
    rw [setIfAbsent_of_present v h]
    exact hx

theorem mem_valuesA_setIfAbsent_elim {m : List (Str × α)} {k : Str} {v x : α}
    (hx : x ∈ valuesA (setIfAbsent m k v)) : x ∈ valuesA m ∨ x = v := by
  cases h : getA m k with
  | none =>
    rw [setIfAbsent_of_absent v h] at hx
    unfold valuesA at hx
    rw [List.map_append] at hx
    rcases List.mem_append.mp hx with h2 | h2
    · exact Or.inl h2
    · right
      simpa using h2
  | some w =>
    rw [setIfAbsent_of_present v h] at hx
    exact Or.inl hx

theorem getA_mem_valuesA {m : List (Str × α)} {k : Str} {v : α}
    (h : getA m k = some v) : v ∈ valuesA m := by
  induction m with
  | nil => simp [getA] at h
  | cons p t ih =>
    obtain ⟨k2, v2⟩ := p
    by_cases hk : k2 = k
    · rw [show getA ((k2, v2) :: t) k = some v2 from by simp [getA, hk]] at h
      have hv : v2 = v := Option.some.inj h
      show v ∈ v2 :: valuesA t
      rw [hv]
      exact List.mem_cons_self _ _
    · simp only [getA, if_neg hk] at h
      show v ∈ v2 :: valuesA t
      exact List.mem_cons_of_mem _ (ih h)

theorem mem_valuesA_exists_getA {m : List (Str × α)} {x : α}
    (hx : x ∈ valuesA m) : ∃ k w, getA m k = some w := by
  cases m with
  | nil => simp [valuesA] at hx
  | cons p t =>
    obtain ⟨k2, v2⟩ := p
    exact ⟨k2, v2, by simp [getA]⟩

/-!
Duplicate resolution (tryResolveDuplicates in src/utils.ts) and its
helpers.  Package-id classification mirrors the regular expressions of the
source; numeric parsing mirrors JavaScript Number and parseInt on the
digit strings the code feeds them.
-/

/-- Value of a digit string under parseInt, base ten. -/
def digitsToNat (s : Str) : Nat :=
  s.foldl (fun acc c => acc * 10 + (c.toNat - '0'.toNat)) 0

/-- If the pattern is a leading piece of the string, the remainder. -/
def leadRest : Str → Str → Option Str
  | [], s => some s
  | _ :: _, [] => none
  | p :: ps, x :: xs => if x = p then leadRest ps xs else none

/-- Test for the core package id pattern hl7.fhir.rN.core. -/
def isCorePackage (s : Str) : Bool :=
  match leadRest (lit "hl7.fhir.r") s with
  | some rest =>
    !(rest.takeWhile Char.isDigit).isEmpty && rest.dropWhile Char.isDigit == lit ".core"
  | none => false

/-- Test for the terminology package id pattern hl7.terminology.rN. -/
def isTerminologyPackage (s : Str) : Bool :=
  match leadRest (lit "hl7.terminology.r") s with
  | some rest => !rest.isEmpty && rest.all Char.isDigit
  | none => false

/-- Test for the extensions package id pattern hl7.fhir.uv.extensions.rN. -/
def isExtensionsPackage (s : Str) : Bool :=
  match leadRest (lit "hl7.fhir.uv.extensions.r") s with
  | some rest => !rest.isEmpty && rest.all Char.isDigit
  | none => false

/-- An implicit support package: terminology or extensions. -/
def isImplicitPackage (s : Str) : Bool :=
  isTerminologyPackage s || isExtensionsPackage s

/-- The terminology resource types recognized by the policy. -/
def isTerminologyResource (rt : Str) : Bool :=
  rt == lit "ValueSet" || rt == lit "ConceptMap" || rt == lit "CodeSystem"

/-- Extraction of the major FHIR version from an implicit package id,
matching the trailing .rN; zero when the pattern is absent. -/
def extractFhirVersion (s : Str) : Nat :=
  let r := s.reverse
  let ds := r.takeWhile Char.isDigit
  if ds.isEmpty then 0
  else
    match r.dropWhile Char.isDigit with
    | 'r' :: '.' :: _ => digitsToNat ds.reverse
    | _ => 0

/-- A JavaScript numeric value as produced by Number on a version
component: a number, NaN, or undefined for a missing component. -/
inductive JsNum where
  | missing
  | nan
  | num (n : Int)
deriving DecidableEq

/-- JavaScript Number on the strings fed to it here: the empty string is
zero, digit strings are their decimal value, anything else is NaN. -/
def jsNumber (s : Str) : JsNum :=
  if s.isEmpty then .num 0
  else if s.all Char.isDigit then .num (digitsToNat s)
  else .nan

/-- Component i of a split version string, undefined past the end. -/
def nthNum (l : List Str) (i : Nat) : JsNum :=
  match l.get? i with
  | some s => jsNumber s
  | none => .missing

/-- JavaScript strict inequality on the numeric values above. -/
def jsStrictNeq : JsNum → JsNum → Bool
  | .num a, .num b => a != b
  | .missing, .missing => false
  | _, _ => true

/-- JavaScript subtraction on the numeric values above; any operand other
than a plain number yields NaN, modelled as none. -/
def jsSub : JsNum → JsNum → Option Int
  | .num a, .num b => some (a - b)
  | _, _ => none

/-- compareSemver (src/utils.ts).  Result none models NaN. -/
def compareSemver (a b : Option Str) : Option Int :=
  if !truthy a && !truthy b then some 0
  else if !truthy a then some (-1)
  else if !truthy b then some 1
  else
    let aParts := splitOnChar '.' ((splitOnChar '-' (ov a)).headD [])
    let bParts := splitOnChar '.' ((splitOnChar '-' (ov b)).headD [])
    if jsStrictNeq (nthNum aParts 0) (nthNum bParts 0) then jsSub (nthNum aParts 0) (nthNum bParts 0)
    else if jsStrictNeq (nthNum aParts 1) (nthNum bParts 1) then jsSub (nthNum aParts 1) (nthNum bParts 1)
    else if jsStrictNeq (nthNum aParts 2) (nthNum bParts 2) then jsSub (nthNum aParts 2) (nthNum bParts 2)
    else some 0

/-- The comparator of resolution step 4 and 5: package version descending,
then embedded FHIR major version descending. -/
def cmp45 (a b : Entry) : Option Int :=
  match compareSemver (some b.pkgVersion) (some a.pkgVersion) with
  | some v =>
    if v ≠ 0 then some v
    else some ((extractFhirVersion b.pkgId : Int) - (extractFhirVersion a.pkgId : Int))
  | none => none

/-- Boolean form of the step 4 and 5 comparator for the sort model; a NaN
comparator result leaves elements unordered, as the JavaScript sort does. -/
def cmp45le (a b : Entry) : Bool :=
  match cmp45 a b with
  | some v => v ≤ 0
  | none => true

/-- Boolean form of compareSemver used to sort plain version strings
ascending in resolution step 6. -/
def cmpVerLe (a b : Str) : Bool :=
  match compareSemver (some a) (some b) with
  | some v => v ≤ 0
  | none => true

/-- Word characters, dots and dashes: the character class of the
pre-release part of the version pattern in resolution step 6. -/
def isWordDotDash (c : Char) : Bool :=
  c.isAlphanum || c = '_' || c = '.' || c = '-'

/-- The version pattern of resolution step 6:
digits dot digits dot digits with an optional dash pre-release suffix. -/
def semverPat (s : Str) : Bool :=
  if (s.takeWhile Char.isDigit).isEmpty then false
  else
    match s.dropWhile Char.isDigit with
    | '.' :: r1 =>
      if (r1.takeWhile Char.isDigit).isEmpty then false
      else
        match r1.dropWhile Char.isDigit with
        | '.' :: r2 =>
          if (r2.takeWhile Char.isDigit).isEmpty then false
          else
            match r2.dropWhile Char.isDigit with
            | [] => true
            | '-' :: r3 => !r3.isEmpty && r3.all isWordDotDash
            | _ => false
        | _ => false
    | _ => false

/-- The guard of resolution step 6 on a document version field: present,
non-empty and matching the version pattern. -/
def validSemverStr (v : Option Str) : Bool :=
  truthy v && semverPat (ov v)

/-- Resolution step 6 (same-package semver collapse). -/
def trdRule6 (ms : List Entry) : List Entry :=
  if ms.any (fun m => !validSemverStr m.version) then []
  else if ((ms.map (fun m => m.pkgId)).dedup).length ≠ 1 then []
  else
    match ms with
    | [] => []
    | m0 :: _ =>
      let versions := ms.map (fun m => ov m.version)
      match (jsSort cmpVerLe versions).getLast? with
      | some latest => ms.filter (fun m => m.pkgId == m0.pkgId && m.version == some latest)
      | none => []

/-- Resolution steps 4 and 5 (implicit package version and FHIR version
bias): sort descending and keep the top entry. -/
def trdRule45 (ms : List Entry) : List Entry :=
  match jsSort cmp45le ms with
  | m :: _ => [m]
  | [] => []

/-- Resolution steps 4 to 6. -/
def trdRules4to6 (ms : List Entry) (f : LookupFilter) : List Entry :=
  if ms.length > 1 && ms.all (fun m => isImplicitPackage m.pkgId) then trdRule45 ms
  else trdRule6 ms

/-- Resolution step 3 (resource type bias among implicit packages),
falling through to steps 4 to 6. -/
def trdRules3to6 (ms : List Entry) (f : LookupFilter) : List Entry :=
  let ms2 :=
    if ms.length > 1 && ms.all (fun m => isImplicitPackage m.pkgId) then
      let tm := ms.filter (fun m => isTerminologyPackage m.pkgId)
      let em := ms.filter (fun m => isExtensionsPackage m.pkgId)
      if tm.length > 0 && em.length > 0 then
        if truthy f.resourceType && isTerminologyResource (ov f.resourceType) then tm else em
      else ms
    else ms
  trdRules4to6 ms2 f

/-- Resolution step 2 (implicit over core bias, with the traditional
single-core early return), falling through to the later steps. -/
def trdRules2to6 (ms : List Entry) (f : LookupFilter) : List Entry :=
  let coreMatches := ms.filter (fun m => isCorePackage m.pkgId)
  let implicitMatches := ms.filter (fun m => isImplicitPackage m.pkgId)
  if implicitMatches.length > 0 && coreMatches.length > 0 then trdRules3to6 implicitMatches f
  else if coreMatches.length == 1 && implicitMatches.length == 0 then coreMatches
  else if implicitMatches.length > 0 && coreMatches.length == 0 then trdRules3to6 implicitMatches f
  else trdRules3to6 ms f

/-- tryResolveDuplicates (src/utils.ts).  The collaborator call that
normalizes the package reference of the filter is abstracted as toPkg. -/
def tryResolveDuplicates (toPkg : PkgRef → Pkg) (ms : List Entry) (f : LookupFilter) :
    List Entry :=
  match f.package with
  | some r =>
    if truthyRef (some r) then
      let pid := toPkg r
      let fm := ms.filter (fun m => m.pkgId == pid.id && m.pkgVersion == pid.version)
      if fm.length == 1 then fm else trdRules2to6 ms f
    else trdRules2to6 ms f
  | none => trdRules2to6 ms f

/-!
The package-management collaborator (fhir-package-installer) is out of the
core scope; it is modelled as a record of pure functions: reference
normalization, the direct dependency map of a package, and the raw file
index of a package.  The install operation has no observable effect in the
model.
-/

/-- A raw record of a package file index, before stamping. -/
structure RawFile where
  filename : Str
  resourceType : Option Str
  id : Option Str
  url : Option Str
  name : Option Str
  version : Option Str
  kind : Option Str
  type : Option Str
  derivation : Option Str
  content : Option Str
deriving DecidableEq

/-- The package-management collaborator. -/
structure Collaborator where
  toPackageObject : PkgRef → Pkg
  dependencies : Pkg → List Pkg
  packageIndex : Pkg → List RawFile

/-- Stamp a raw index record with its owning package identity, as done
when lookupMeta first touches a package. -/
def stampEntry (p : Pkg) (r : RawFile) : Entry :=
  ⟨p.id, p.version, r.filename, r.resourceType, r.id, r.url, r.name, r.version,
   r.kind, r.type, r.derivation, r.content⟩

/-- The stamped index of a package. -/
def stamped (C : Collaborator) (p : Pkg) : List Entry :=
  (C.packageIndex p).map (stampEntry p)

/-- JavaScript String.prototype.includes: substring occurrence. -/
def isSubstr : Str → Str → Bool
  | n, [] => n.isEmpty
  | n, x :: xs => (leadRest n (x :: xs)).isSome || isSubstr n xs

/-- The dependency edges actually walked by _collectDependencies: when
skipExamples is set, dependencies whose id contains the marker are not
visited. -/
def effDeps (C : Collaborator) (skipEx : Bool) (p : Pkg) : List Pkg :=
  (C.dependencies p).filter (fun d => !(skipEx && isSubstr (lit "examples") d.id))

/-- The recursive visit of _collectDependencies: a depth-first walk with a
visited key set.  The source recursion always terminates because the
visited set grows; the model makes this explicit with fuel, which the
theorems require to be large enough. -/
def visit (deps : Pkg → List Pkg) : Nat → List Str → Pkg → List Str
  | 0, vis, _ => vis
  | n + 1, vis, p =>
    if pkgKey p ∈ vis then vis
    else (deps p).foldl (fun acc q => visit deps n acc q) (pkgKey p :: vis)

/-- _collectDependencies (src/index.ts): the set of id#version keys of a
package and its transitive dependencies. -/
def collectDependencies (C : Collaborator) (skipEx : Bool) (fuel : Nat) (p : Pkg) : List Str :=
  visit (effDeps C skipEx) fuel [] p

/-- The outcome of _loadContext: the minimal normalized roots and the full
canonical scope. -/
structure LoadedContext where
  normalizedRootPackages : List Pkg
  contextPackages : List Pkg
deriving DecidableEq

/-- _loadContext (src/index.ts). -/
def loadContext (C : Collaborator) (skipEx : Bool) (fuel : Nat) (context : List PkgRef) :
    LoadedContext :=
  let initialRoots := valuesA (context.foldl
    (fun m e => let p := C.toPackageObject e; setA m (pkgKey p) p) [])
  let rcm := initialRoots.foldl
    (fun (acc : List (Str × List Str) × List (Str × Pkg)) r =>
      let closure := collectDependencies C skipEx fuel r
      (setA acc.1 (pkgKey r) closure,
       closure.foldl (fun m2 k => setA m2 k (splitKeyPkg k)) acc.2))
    ([], [])
  let rootClosures := rcm.1
  let keyToPkg := rcm.2
  let allRootKeys := initialRoots.map pkgKey
  let isRedundant := fun (k : Str) => allRootKeys.any (fun rk =>
    rk ≠ k && (match getA rootClosures rk with
               | some cl => k ∈ cl
               | none => false))
  let minimalRoots0 := initialRoots.filter (fun r => !isRedundant (pkgKey r))
  let minimalRoots :=
    if minimalRoots0.isEmpty && !initialRoots.isEmpty then
      match sortPackages initialRoots with
      | r :: _ => [r]
      | [] => []
    else minimalRoots0
  let finalContextMap := minimalRoots.foldl
    (fun m mr =>
      match getA rootClosures (pkgKey mr) with
      | some closure => closure.foldl
          (fun m2 k =>
            match getA keyToPkg k with
            | some pobj => setA m2 k pobj
            | none => m2) m
      | none => m)
    []
  ⟨sortPackages minimalRoots, sortPackages (valuesA finalContextMap)⟩

/-- getContextPackages (src/index.ts). -/
def getContextPackages (lc : LoadedContext) : List Pkg := lc.contextPackages

/-- getNormalizedRootPackages (src/index.ts). -/
def getNormalizedRootPackages (lc : LoadedContext) : List Pkg := lc.normalizedRootPackages

/-- The id#version key stamped on an entry. -/
def entryPkgKey (e : Entry) : Str := e.pkgId ++ '#' :: e.pkgVersion

/-- The deduplication key of lookupMeta results:
filename pipe packageId pipe packageVersion. -/
def compositeKey (e : Entry) : Str := e.filename ++ '|' :: e.pkgId ++ '|' :: e.pkgVersion

/-- The mutable caches of an explorer instance that lookupMeta reads and
writes: the per-package index cache and the fast index.  Modelled as
growing maps; least-recently-used eviction is not modelled. -/
structure ExpState where
  indexCache : List (Str × List Entry)
  fastIndex : List (Str × List Entry)
deriving DecidableEq

/-- _buildFastIndex (src/index.ts): append every entry to the bucket of
each of its composite keys. -/
def buildFastIndex (fi : List (Str × List Entry)) (idx : List Entry) : List (Str × List Entry) :=
  idx.foldl
    (fun fi2 e =>
      (getAllFastIndexKeys (entryKeySource e)).foldl
        (fun fi3 k => setA fi3 k ((getA fi3 k).getD [] ++ [e])) fi2)
    fi

/-- The per-candidate accumulation of lookupMeta: skip entries outside an
active package restriction, skip non-matches, record matches keyed by
composite key, first occurrence winning. -/
def collectBody (nf : LookupFilter) (allowed : Option (List Str))
    (rm3 : List (Str × Entry)) (e : Entry) : List (Str × Entry) :=
  if (match allowed with
      | some a => decide (entryPkgKey e ∉ a)
      | none => false) then rm3
  else if !matchesFilter e nf then rm3
  else setIfAbsent rm3 (compositeKey e) e

/-- The body of the per-package loop of lookupMeta. -/
def lookupStep (C : Collaborator) (nf : LookupFilter) (allowed : Option (List Str))
    (acc : List (Str × Entry) × ExpState) (pkg : Pkg) : List (Str × Entry) × ExpState :=
  let rm := acc.1
  let st := acc.2
  if (match allowed with
      | some a => decide (pkgKey pkg ∉ a)
      | none => false) then acc
  else
    let built :=
      match getA st.indexCache (pkgKey pkg) with
      | some idx => (idx, st)
      | none =>
        let newIndex := stamped C pkg
        (newIndex,
         ⟨setA st.indexCache (pkgKey pkg) newIndex, buildFastIndex st.fastIndex newIndex⟩)
    let idx := built.1
    let st2 := built.2
    let fastKeys := getAllFastIndexKeys (filterKeySource nf)
    let fastCandidates := fastKeys.flatMap (fun k => (getA st2.fastIndex k).getD [])
    let candidates := if fastCandidates.length > 0 then fastCandidates else idx
    let rm2 := candidates.foldl (collectBody nf allowed) rm
    (rm2, st2)

/-- The package-scope restriction of a lookup: when the normalized filter
carries a truthy package reference, the keys of that package's dependency
closure. -/
def allowedOf (C : Collaborator) (skipEx : Bool) (fuel : Nat) (nf : LookupFilter) :
    Option (List Str) :=
  match nf.package with
  | some r =>
    if truthyRef (some r) then
      some (collectDependencies C skipEx fuel (C.toPackageObject r))
    else none
  | none => none

/-- lookupMeta (src/index.ts). -/
def lookupMeta (C : Collaborator) (skipEx : Bool) (fuel : Nat) (ctx : List Pkg)
    (st : ExpState) (f : LookupFilter) : List Entry × ExpState :=
  let nf := normalizePipedFilter f
  let allowed := allowedOf C skipEx fuel nf
  let folded := ctx.foldl (lookupStep C nf allowed) ([], st)
  (valuesA folded.1, folded.2)

/-- The failures resolve and resolveMeta can raise, carrying the data the
source interpolates into the thrown message: the offending filter and, for
ambiguity, the id@version of every candidate owner. -/
inductive ResolveErr where
  | noMatch (f : LookupFilter)
  | multipleMatches (f : LookupFilter) (owners : List Str)
deriving DecidableEq

/-- The owning package of a match as interpolated into the ambiguity
message: id at version. -/
def matchOwner (e : Entry) : Str := e.pkgId ++ '@' :: e.pkgVersion

/-- The shared tail of resolve and resolveMeta: fail on zero matches,
collapse duplicates on more than one, fail when the chain does not
collapse to exactly one. -/
def resolveFromMatches (toPkg : PkgRef → Pkg) (f : LookupFilter) (ms : List Entry) :
    Except ResolveErr Entry :=
  if ms.length = 0 then .error (.noMatch f)
  else if 1 < ms.length then
    match tryResolveDuplicates toPkg ms f with
    | [c] => .ok c
    | _ => .error (.multipleMatches f (ms.map matchOwner))
  else
    match ms with
    | m :: _ => .ok m
    | [] => .error (.noMatch f)

/-- resolveMeta (src/index.ts). -/
def resolveMeta (C : Collaborator) (skipEx : Bool) (fuel : Nat) (ctx : List Pkg)
    (st : ExpState) (f : LookupFilter) : Except ResolveErr Entry × ExpState :=
  let r := lookupMeta C skipEx fuel ctx st f
  (resolveFromMatches C.toPackageObject f r.1, r.2)

/-- resolve (src/index.ts): identical control flow over the documents
produced by lookup; document loading and enrichment are abstracted as a
function on the underlying matches. -/
def resolveDoc (C : Collaborator) (skipEx : Bool) (fuel : Nat) (ctx : List Pkg)
    (st : ExpState) (f : LookupFilter) (enrich : Entry → Entry) :
    Except ResolveErr Entry × ExpState :=
  let r := lookupMeta C skipEx fuel ctx st f
  (resolveFromMatches C.toPackageObject f (r.1.map enrich), r.2)

theorem takeWhile_append_of_all {p : Char → Bool} {d rest : Str}
    (hall : ∀ c ∈ d, p c = true)
    (hrest : ∀ c, rest.head? = some c → p c = false) :
    (d ++ rest).takeWhile p = d ∧ (d ++ rest).dropWhile p = rest := by
  induction d with
  | nil =>
    cases rest with
    | nil => simp
    | cons c cs =>
      have := hrest c rfl
      simp [List.takeWhile, List.dropWhile, this]
  | cons x xs ih =>
    have hx := hall x (List.mem_cons_self x xs)
    have ih2 := ih (fun c hc => hall c (List.mem_cons_of_mem x hc))
    simp [List.takeWhile, List.dropWhile, hx, ih2.1, ih2.2]

/-!
Claim results.
-/

/-- C3 counterexample: the claimed round trip normalize of url X pipe V
equal to url X with version V fails as soon as X itself contains a pipe:
for X the string a pipe b and V the string c, the input url is the string
a pipe b pipe c, and normalization yields url a with version b, not
url a pipe b with version c; nor is the version the full substring after
the first pipe. -/
theorem c3_counterexample :
    lit "a|b|c" = lit "a|b" ++ '|' :: lit "c" ∧
    normalizePipedFilter { url := some (lit "a|b|c") } ≠
      { url := some (lit "a|b"), version := some (lit "c") } ∧
    normalizePipedFilter { url := some (lit "a|b|c") } =
      { url := some (lit "a"), version := some (lit "b") } := by
  refine ⟨by decide, by decide, by decide⟩

theorem jsSplitPipe_clean {X V : Str} (hX : '|' ∉ X) (hV : '|' ∉ V) :
    jsSplitPipe (X ++ '|' :: V) = (X, some V) := by
  unfold jsSplitPipe
  rw [splitOnChar_append V hX, splitOnChar_of_not_mem hV]

/-- C3 (amended): normalization replaces the first piped field in the
order url, name, id; the field becomes the substring before the first
pipe and the version becomes the segment between the first pipe and the
next pipe if any; no other piped field is honored.  In particular, for
any filter whose url is X pipe V with X and V free of pipes, the result
is the same filter with url X and version V, regardless of the remaining
fields. -/
theorem c3_theorem (f : LookupFilter) (X V : Str) (hX : '|' ∉ X) (hV : '|' ∉ V) :
    normalizePipedFilter { f with url := some (X ++ '|' :: V) } =
      { f with url := some X, version := some V } := by
  show (if '|' ∈ X ++ '|' :: V then _ else _) = _
  rw [if_pos (mem_append_cons '|' X V), jsSplitPipe_clean hX hV]

/-- C3 witness: the amended round trip at a concrete canonical url. -/
theorem c3_witness :
    ('|' ∉ lit "http://x/StructureDefinition/bp") ∧ ('|' ∉ lit "4.0.1") ∧
    normalizePipedFilter
        { url := some (lit "http://x/StructureDefinition/bp" ++ '|' :: lit "4.0.1") } =
      { url := some (lit "http://x/StructureDefinition/bp"), version := some (lit "4.0.1") } :=
  ⟨by decide, by decide, c3_theorem {} _ _ (by decide) (by decide)⟩

theorem optMatch_eq_true_iff (fv ev : Option Str) :
    optMatch fv ev = true ↔ ∀ v, fv = some v → ev = some v := by
  cases fv with
  | none => simp [optMatch]
  | some v => simp [optMatch]

/-- C4: matchesFilter returns true exactly when every field of the filter
other than package is present on the entry with an exactly equal value
(exact string equality, no wildcards, no case folding). -/
theorem c4_theorem (e : Entry) (f : LookupFilter) :
    matchesFilter e f = true ↔ MatchesSpec e f := by
  unfold matchesFilter MatchesSpec
  simp only [Bool.and_eq_true, optMatch_eq_true_iff]
  constructor
  · rintro ⟨⟨⟨⟨⟨⟨⟨⟨⟨h1, h2⟩, h3⟩, h4⟩, h5⟩, h6⟩, h7⟩, h8⟩, h9⟩, h10⟩
    refine ⟨h1, h2, h3, h4, h5, ?_, h7, h8, h9, h10⟩
    intro v hv
    rw [hv] at h6
    simpa using h6
  · rintro ⟨h1, h2, h3, h4, h5, h6, h7, h8, h9, h10⟩
    refine ⟨⟨⟨⟨⟨⟨⟨⟨⟨h1, h2⟩, h3⟩, h4⟩, h5⟩, ?_⟩, h7⟩, h8⟩, h9⟩, h10⟩
    cases hf : f.filename with
    | none => simp
    | some v => simpa using h6 v hf

/-- C4 witness: the equivalence applied at a concrete entry and filter. -/
theorem c4_witness :
    matchesFilter
        ⟨lit "p", lit "1", lit "f.json", some (lit "ValueSet"), some (lit "vs"),
         none, none, none, none, none, none, none⟩
        { resourceType := some (lit "ValueSet") } = true ↔
      MatchesSpec
        ⟨lit "p", lit "1", lit "f.json", some (lit "ValueSet"), some (lit "vs"),
         none, none, none, none, none, none, none⟩
        { resourceType := some (lit "ValueSet") } :=
  c4_theorem _ _

/-- A collaborator with no dependencies and empty indexes, used by the
concrete scenarios below; string references resolve to the package named
by the string with version 1. -/
def flatC : Collaborator :=
  ⟨fun r => match r with
            | .obj p => p
            | .str s => ⟨s, lit "1"⟩,
   fun _ => [],
   fun _ => []⟩

/-- C2 counterexample: sortPackages orders by the concatenated string id
at-sign version, which disagrees with id-then-version ordering when one id
is a proper leading piece of another.  With context packages id a version 1
and id a.b version 1, the returned scope places a.b first although the id
a is strictly the smaller string, so the first element neither has a
smaller id nor an equal id. -/
theorem c2_counterexample :
    getContextPackages
        (loadContext flatC false 2 [.obj ⟨lit "a", lit "1"⟩, .obj ⟨lit "a.b", lit "1"⟩]) =
      [⟨lit "a.b", lit "1"⟩, ⟨lit "a", lit "1"⟩] ∧
    strLt (lit "a") (lit "a.b") = true ∧
    ¬(strLt (lit "a.b") (lit "a") = true ∨
      (lit "a.b" = lit "a" ∧ strLt (lit "1") (lit "1") = true)) := by
  refine ⟨by decide, by decide, by decide⟩

theorem sortPackagesLe_total (a b : Pkg) :
    sortPackagesLe a b = true ∨ sortPackagesLe b a = true := by
  unfold sortPackagesLe
  by_cases h : strLt (atKey b) (atKey a) = true
  · right
    simp [strLt_asymm h]
  · left
    simp [Bool.not_eq_true] at h
    simp [h]

theorem sortPackagesLe_trans {a b c : Pkg}
    (h₁ : sortPackagesLe a b = true) (h₂ : sortPackagesLe b c = true) :
    sortPackagesLe a c = true := by
  unfold sortPackagesLe at h₁ h₂ ⊢
  simp only [Bool.not_eq_true'] at h₁ h₂ ⊢
  by_contra hc
  have hca : strLt (atKey c) (atKey a) = true := by
    cases h : strLt (atKey c) (atKey a) with
    | false => exact absurd h hc
    | true => rfl
  by_cases hab : atKey a = atKey b
  · rw [hab] at hca
    rw [hca] at h₂
    exact Bool.noConfusion h₂
  · rcases strLt_conn hab with h3 | h3
    · have h4 := strLt_trans hca h3
      rw [h4] at h₂
      exact Bool.noConfusion h₂
    · rw [h3] at h₁
      exact Bool.noConfusion h₁

/-- C2 (amended): the canonical scope is sorted deterministically by the
concatenated sort key id at-sign version compared as a JavaScript string:
for any package A before a package B in the returned sequence, either the
key of A is strictly below the key of B or the keys are equal.  When the
ids are equal this orders by version; but when one id is a proper leading
piece of another the key order can differ from id-then-version order. -/
theorem c2_theorem (C : Collaborator) (skipEx : Bool) (fuel : Nat) (context : List PkgRef) :
    List.Pairwise
      (fun a b => strLt (atKey a) (atKey b) = true ∨ atKey a = atKey b)
      (getContextPackages (loadContext C skipEx fuel context)) := by
  have hp : List.Pairwise (fun a b => sortPackagesLe a b = true)
      (getContextPackages (loadContext C skipEx fuel context)) := by
    apply jsSort_pairwise
    · intro a _ b _
      exact sortPackagesLe_total a b
    · intro a _ b _ c _ h₁ h₂
      exact sortPackagesLe_trans h₁ h₂
  refine hp.imp ?_
  intro a b h
  unfold sortPackagesLe at h
  simp only [Bool.not_eq_true'] at h
  by_cases he : atKey a = atKey b
  · exact Or.inr he
  · rcases strLt_conn he with h2 | h2
    · exact Or.inl h2
    · rw [h2] at h
      exact Bool.noConfusion h

/-- C7: when the filter names a package and exactly one match is owned by
the normalized package identifier, the duplicate resolution policy
returns exactly that match, before any of the later bias rules can act
(the conclusion holds for every match set whatsoever). -/
theorem c7_theorem (toPkg : PkgRef → Pkg) (ms : List Entry) (f : LookupFilter)
    (r : PkgRef) (m : Entry)
    (hp : f.package = some r)
    (ht : truthyRef (some r) = true)
    (hu : ms.filter (fun x => x.pkgId == (toPkg r).id && x.pkgVersion == (toPkg r).version) = [m]) :
    tryResolveDuplicates toPkg ms f = [m] := by
  unfold tryResolveDuplicates
  rw [hp]
  simp only [ht, if_pos]
  rw [hu]
  rfl

/-- Entries used by the concrete scenarios: a terminology resource owned
by package p at 1.0.0, and the same document owned by a core package. -/
def eW : Entry :=
  ⟨lit "p", lit "1.0.0", lit "f.json", some (lit "ValueSet"), some (lit "vs"),
   none, none, some (lit "1.0.0"), none, none, none, none⟩

def eCore : Entry :=
  ⟨lit "hl7.fhir.r4.core", lit "4.0.1", lit "f.json", some (lit "ValueSet"),
   some (lit "vs"), none, none, some (lit "1.0.0"), none, none, none, none⟩

/-- C7 witness: an ambiguous pair containing a core copy resolves to the
explicitly scoped non-core copy. -/
theorem c7_witness :
    tryResolveDuplicates (fun _ => ⟨lit "p", lit "1.0.0"⟩) [eCore, eW]
      { package := some (.str (lit "p|1.0.0")) } = [eW] :=
  c7_theorem _ _ _ _ _ rfl (by decide) (by decide)

theorem trdRule6_sub {ms : List Entry} {e : Entry} (he : e ∈ trdRule6 ms) : e ∈ ms := by
  simp only [trdRule6] at he
  split at he
  · simp at he
  · split at he
    · simp at he
    · split at he
      · simp at he
      · split at he
        · exact List.mem_of_mem_filter he
        · simp at he

theorem trdRule45_sub {ms : List Entry} {e : Entry} (he : e ∈ trdRule45 ms) : e ∈ ms := by
  unfold trdRule45 at he
  split at he
  · rename_i m rest heq
    have hm : m ∈ jsSort cmp45le ms := by
      rw [heq]
      exact List.mem_cons_self m rest
    have := (jsSort_mem cmp45le ms m).mp hm
    rcases List.mem_singleton.mp he with rfl
    exact this
  · simp at he

theorem trdRules4to6_sub {ms : List Entry} {f : LookupFilter} {e : Entry}
    (he : e ∈ trdRules4to6 ms f) : e ∈ ms := by
  unfold trdRules4to6 at he
  split at he
  · exact trdRule45_sub he
  · exact trdRule6_sub he

theorem trdRules3to6_sub {ms : List Entry} {f : LookupFilter} {e : Entry}
    (he : e ∈ trdRules3to6 ms f) : e ∈ ms := by
  simp only [trdRules3to6] at he
  split at he
  · split at he
    · split at he
      · exact List.mem_of_mem_filter (trdRules4to6_sub he)
      · exact List.mem_of_mem_filter (trdRules4to6_sub he)
    · exact trdRules4to6_sub he
  · exact trdRules4to6_sub he

theorem trdRules2to6_sub {ms : List Entry} {f : LookupFilter} {e : Entry}
    (he : e ∈ trdRules2to6 ms f) : e ∈ ms := by
  simp only [trdRules2to6] at he
  split at he
  · exact List.mem_of_mem_filter (trdRules3to6_sub he)
  · split at he
    · exact List.mem_of_mem_filter he
    · split at he
      · exact List.mem_of_mem_filter (trdRules3to6_sub he)
      · exact trdRules3to6_sub he

/-- C10: the duplicate resolution policy only narrows: every entry of its
result is an element of the input match set; it never invents or alters
an entry. -/
theorem c10_theorem (toPkg : PkgRef → Pkg) (ms : List Entry) (f : LookupFilter) :
    ∀ e ∈ tryResolveDuplicates toPkg ms f, e ∈ ms := by
  intro e he
  simp only [tryResolveDuplicates] at he
  split at he
  · split at he
    · split at he
      · exact List.mem_of_mem_filter he
      · exact trdRules2to6_sub he
    · exact trdRules2to6_sub he
  · exact trdRules2to6_sub he

/-- C10 witness: the containment applied to a concrete resolved set. -/
theorem c10_witness : eW ∈ [eW] :=
  c10_theorem (fun _ => ⟨lit "p", lit "1"⟩) [eW] {} eW (by decide)

theorem resolveFromMatches_spec (toPkg : PkgRef → Pkg) (f : LookupFilter) (ms : List Entry) :
    ((∃ er, resolveFromMatches toPkg f ms = .error er) ↔
      (ms = [] ∨ (1 < ms.length ∧ (tryResolveDuplicates toPkg ms f).length ≠ 1))) ∧
    (ms = [] → resolveFromMatches toPkg f ms = .error (.noMatch f)) ∧
    (1 < ms.length → (tryResolveDuplicates toPkg ms f).length ≠ 1 →
      resolveFromMatches toPkg f ms = .error (.multipleMatches f (ms.map matchOwner))) ∧
    (ms ≠ [] → (1 < ms.length → (tryResolveDuplicates toPkg ms f).length = 1) →
      ∃ m, resolveFromMatches toPkg f ms = .ok m) := by
  by_cases h0 : ms.length = 0
  · have hnil : ms = [] := List.length_eq_zero.mp h0
    subst hnil
    refine ⟨?_, fun _ => rfl, ?_, ?_⟩
    · simp [resolveFromMatches]
    · intro h; simp at h
    · intro h; simp at h
  · have hne : ms ≠ [] := fun h => h0 (by simp [h])
    by_cases h1 : 1 < ms.length
    · have hform : resolveFromMatches toPkg f ms =
          match tryResolveDuplicates toPkg ms f with
          | [c] => .ok c
          | _ => .error (.multipleMatches f (ms.map matchOwner)) := by
        unfold resolveFromMatches
        rw [if_neg h0, if_pos h1]
      rcases hc : tryResolveDuplicates toPkg ms f with _ | ⟨c, _ | ⟨c2, cs⟩⟩
      · rw [hc] at hform
        refine ⟨?_, fun h => absurd h hne, ?_, ?_⟩
        · constructor
          · intro _
            exact Or.inr ⟨h1, by simp⟩
          · intro _
            exact ⟨_, hform⟩
        · intro _ _; exact hform
        · intro _ hone
          have h2 := hone h1
          simp at h2
      · rw [hc] at hform
        refine ⟨?_, fun h => absurd h hne, ?_, ?_⟩
        · constructor
          · rintro ⟨er, her⟩
            rw [hform] at her
            exact absurd her (by simp)
          · rintro (h | ⟨_, hlen2⟩)
            · exact absurd h hne
            · simp at hlen2
        · intro _ hlen2
          simp at hlen2
        · intro _ _; exact ⟨c, hform⟩
      · rw [hc] at hform
        refine ⟨?_, fun h => absurd h hne, ?_, ?_⟩
        · constructor
          · intro _
            exact Or.inr ⟨h1, by simp⟩
          · intro _
            exact ⟨_, hform⟩
        · intro _ _; exact hform
        · intro _ hone
          have h2 := hone h1
          simp at h2
    · obtain ⟨m, rest, hm⟩ : ∃ m rest, ms = m :: rest := by
        cases ms with
        | nil => exact absurd rfl hne
        | cons a t => exact ⟨a, t, rfl⟩
      have hform : resolveFromMatches toPkg f ms = .ok m := by
        unfold resolveFromMatches
        rw [if_neg h0, if_neg h1, hm]
      refine ⟨?_, fun h => absurd h hne, ?_, ?_⟩
      · constructor
        · rintro ⟨er, her⟩
          rw [hform] at her
          exact absurd her (by simp)
        · rintro (h | ⟨h, _⟩)
          · exact absurd h hne
          · exact absurd h h1
      · intro h; exact absurd h h1
      · intro _ _; exact ⟨m, hform⟩

/-- C9: resolveMeta, and resolve over the enriched documents, fail exactly
when the query yields zero matches or yields several that the duplicate
resolution chain cannot collapse to exactly one; in the ambiguous case the
error carries the offending filter and the owning package of every
candidate; otherwise a single result is returned. -/
theorem c9_theorem (C : Collaborator) (skipEx : Bool) (fuel : Nat) (ctx : List Pkg)
    (st : ExpState) (f : LookupFilter) (enrich : Entry → Entry) :
    (((∃ er, (resolveMeta C skipEx fuel ctx st f).1 = .error er) ↔
        ((lookupMeta C skipEx fuel ctx st f).1 = [] ∨
         (1 < (lookupMeta C skipEx fuel ctx st f).1.length ∧
          (tryResolveDuplicates C.toPackageObject
            (lookupMeta C skipEx fuel ctx st f).1 f).length ≠ 1))) ∧
      ((lookupMeta C skipEx fuel ctx st f).1 = [] →
        (resolveMeta C skipEx fuel ctx st f).1 = .error (.noMatch f)) ∧
      (1 < (lookupMeta C skipEx fuel ctx st f).1.length →
        (tryResolveDuplicates C.toPackageObject
          (lookupMeta C skipEx fuel ctx st f).1 f).length ≠ 1 →
        (resolveMeta C skipEx fuel ctx st f).1 =
          .error (.multipleMatches f ((lookupMeta C skipEx fuel ctx st f).1.map matchOwner))) ∧
      ((lookupMeta C skipEx fuel ctx st f).1 ≠ [] →
        (1 < (lookupMeta C skipEx fuel ctx st f).1.length →
          (tryResolveDuplicates C.toPackageObject
            (lookupMeta C skipEx fuel ctx st f).1 f).length = 1) →
        ∃ m, (resolveMeta C skipEx fuel ctx st f).1 = .ok m)) ∧
    (((∃ er, (resolveDoc C skipEx fuel ctx st f enrich).1 = .error er) ↔
        (((lookupMeta C skipEx fuel ctx st f).1.map enrich) = [] ∨
         (1 < ((lookupMeta C skipEx fuel ctx st f).1.map enrich).length ∧
          (tryResolveDuplicates C.toPackageObject
            ((lookupMeta C skipEx fuel ctx st f).1.map enrich) f).length ≠ 1))) ∧
      (1 < ((lookupMeta C skipEx fuel ctx st f).1.map enrich).length →
        (tryResolveDuplicates C.toPackageObject
          ((lookupMeta C skipEx fuel ctx st f).1.map enrich) f).length ≠ 1 →
        (resolveDoc C skipEx fuel ctx st f enrich).1 =
          .error (.multipleMatches f
            (((lookupMeta C skipEx fuel ctx st f).1.map enrich).map matchOwner)))) := by
  have h1 := resolveFromMatches_spec C.toPackageObject f (lookupMeta C skipEx fuel ctx st f).1
  have h2 := resolveFromMatches_spec C.toPackageObject f
    ((lookupMeta C skipEx fuel ctx st f).1.map enrich)
  exact ⟨⟨h1.1, h1.2.1, h1.2.2.1, fun hne hone => h1.2.2.2 hne hone⟩,
         ⟨h2.1, h2.2.2.1⟩⟩

/-- C9 witness: with an empty scope every query resolves to the no-match
failure, exercising the characterization at a concrete instance. -/
theorem c9_witness :
    ((∃ er, (resolveMeta flatC false 1 [] ⟨[], []⟩ {}).1 = .error er) ↔
      ((lookupMeta flatC false 1 [] ⟨[], []⟩ {}).1 = [] ∨
       (1 < (lookupMeta flatC false 1 [] ⟨[], []⟩ {}).1.length ∧
        (tryResolveDuplicates flatC.toPackageObject
          (lookupMeta flatC false 1 [] ⟨[], []⟩ {}).1 {}).length ≠ 1))) :=
  (c9_theorem flatC false 1 [] ⟨[], []⟩ {} id).1.1

/-- The numeric value triple of a version string as compared by
compareSemver: the dot components of the part before any dash. -/
def verTriple3 (s : Str) : Nat × Nat × Nat :=
  match splitOnChar '.' ((splitOnChar '-' s).headD []) with
  | [] => (0, 0, 0)
  | [a] => (digitsToNat a, 0, 0)
  | [a, b] => (digitsToNat a, digitsToNat b, 0)
  | a :: b :: c :: _ => (digitsToNat a, digitsToNat b, digitsToNat c)

/-- The comparison value of two parsed version triples. -/
def cmpTriple (x y : Nat × Nat × Nat) : Int :=
  if x.1 ≠ y.1 then (x.1 : Int) - y.1
  else if x.2.1 ≠ y.2.1 then (x.2.1 : Int) - y.2.1
  else if x.2.2 ≠ y.2.2 then (x.2.2 : Int) - y.2.2
  else 0

/-- The resolution key the specification describes for steps 4 and 5: the
owning package version triple, then the major version embedded in the
package id. -/
def entKey (e : Entry) : (Nat × Nat × Nat) × Nat :=
  (verTriple3 e.pkgVersion, extractFhirVersion e.pkgId)

/-- Lexicographic order on resolution keys: version triple first, then
embedded major version. -/
def verKeyLe (x y : (Nat × Nat × Nat) × Nat) : Bool :=
  if x.1.1 ≠ y.1.1 then decide (x.1.1 < y.1.1)
  else if x.1.2.1 ≠ y.1.2.1 then decide (x.1.2.1 < y.1.2.1)
  else if x.1.2.2 ≠ y.1.2.2 then decide (x.1.2.2 < y.1.2.2)
  else decide (x.2 ≤ y.2)

theorem verKeyLe_iff (x y : (Nat × Nat × Nat) × Nat) :
    verKeyLe x y = true ↔
      (x.1.1 < y.1.1 ∨
       (x.1.1 = y.1.1 ∧
        (x.1.2.1 < y.1.2.1 ∨
         (x.1.2.1 = y.1.2.1 ∧
          (x.1.2.2 < y.1.2.2 ∨
           (x.1.2.2 = y.1.2.2 ∧ x.2 ≤ y.2)))))) := by
  unfold verKeyLe
  by_cases h1 : x.1.1 = y.1.1 <;>
    by_cases h2 : x.1.2.1 = y.1.2.1 <;>
      by_cases h3 : x.1.2.2 = y.1.2.2 <;>
        simp [h1, h2, h3] <;>
          omega

theorem verKeyLe_refl (x : (Nat × Nat × Nat) × Nat) : verKeyLe x x = true := by
  rw [verKeyLe_iff]
  omega

theorem verKeyLe_total (x y : (Nat × Nat × Nat) × Nat) :
    verKeyLe x y = true ∨ verKeyLe y x = true := by
  rw [verKeyLe_iff, verKeyLe_iff]
  omega

theorem verKeyLe_trans {x y z : (Nat × Nat × Nat) × Nat}
    (h₁ : verKeyLe x y = true) (h₂ : verKeyLe y z = true) : verKeyLe x z = true := by
  rw [verKeyLe_iff] at h₁ h₂ ⊢
  omega

/-- The structural content of the step 6 version pattern: three non-empty
digit groups separated by dots, followed by nothing or by a dash and a
suffix. -/
theorem semverPat_struct {s : Str} (h : semverPat s = true) :
    ∃ d1 d2 d3 rest,
      s = d1 ++ '.' :: (d2 ++ '.' :: (d3 ++ rest)) ∧
      d1 ≠ [] ∧ d2 ≠ [] ∧ d3 ≠ [] ∧
      (∀ c ∈ d1, c.isDigit = true) ∧ (∀ c ∈ d2, c.isDigit = true) ∧
      (∀ c ∈ d3, c.isDigit = true) ∧
      (rest = [] ∨ ∃ r3, rest = '-' :: r3) := by
  simp only [semverPat] at h
  split at h
  · exact absurd h (by simp)
  · rename_i hne1
    split at h
    · rename_i r1 heq1
      split at h
      · exact absurd h (by simp)
      · rename_i hne2
        split at h
        · rename_i r2 heq2
          split at h
          · exact absurd h (by simp)
          · rename_i hne3
            refine ⟨s.takeWhile Char.isDigit, r1.takeWhile Char.isDigit,
                    r2.takeWhile Char.isDigit, r2.dropWhile Char.isDigit,
                    ?_, ?_, ?_, ?_, ?_, ?_, ?_, ?_⟩
            · have e1 := (List.takeWhile_append_dropWhile Char.isDigit s).symm
              have e2 := (List.takeWhile_append_dropWhile Char.isDigit r1).symm
              have e3 := (List.takeWhile_append_dropWhile Char.isDigit r2).symm
              conv_lhs => rw [e1, heq1, e2, heq2, e3]
            · intro hh; rw [hh] at hne1; exact hne1 (by simp)
            · intro hh; rw [hh] at hne2; exact hne2 (by simp)
            · intro hh; rw [hh] at hne3; exact hne3 (by simp)
            · intro c hc; exact List.mem_takeWhile_imp hc
            · intro c hc; exact List.mem_takeWhile_imp hc
            · intro c hc; exact List.mem_takeWhile_imp hc
            · split at h
              · rename_i heq3
                exact Or.inl heq3
              · rename_i r3 heq3
                exact Or.inr ⟨r3, heq3⟩
              · exact absurd h (by simp)
        · exact absurd h (by simp)
    · exact absurd h (by simp)

theorem digit_ne_dot {c : Char} (h : c.isDigit = true) : c ≠ '.' := by
  intro hh; subst hh; simp [Char.isDigit] at h

theorem digit_ne_dash {c : Char} (h : c.isDigit = true) : c ≠ '-' := by
  intro hh; subst hh; simp [Char.isDigit] at h

theorem dot_not_mem_digits {d : Str} (h : ∀ c ∈ d, c.isDigit = true) : '.' ∉ d :=
  fun hm => digit_ne_dot (h '.' hm) rfl

theorem dash_not_mem_digits {d : Str} (h : ∀ c ∈ d, c.isDigit = true) : '-' ∉ d :=
  fun hm => digit_ne_dash (h '-' hm) rfl

theorem coreOf_struct {d1 d2 d3 rest : Str}
    (h1 : ∀ c ∈ d1, c.isDigit = true) (h2 : ∀ c ∈ d2, c.isDigit = true)
    (h3 : ∀ c ∈ d3, c.isDigit = true)
    (hrest : rest = [] ∨ ∃ r3, rest = '-' :: r3) :
    (splitOnChar '-' (d1 ++ '.' :: (d2 ++ '.' :: (d3 ++ rest)))).headD [] =
      d1 ++ '.' :: (d2 ++ '.' :: d3) := by
  have hcore : '-' ∉ d1 ++ '.' :: (d2 ++ '.' :: d3) := by
    intro hm
    rcases List.mem_append.mp hm with hm | hm
    · exact dash_not_mem_digits h1 hm
    · rcases List.mem_cons.mp hm with hm | hm
      · exact absurd hm.symm (by decide)
      · rcases List.mem_append.mp hm with hm | hm
        · exact dash_not_mem_digits h2 hm
        · rcases List.mem_cons.mp hm with hm | hm
          · exact absurd hm.symm (by decide)
          · exact dash_not_mem_digits h3 hm
  rcases hrest with hr | ⟨r3, hr⟩
  · subst hr
    rw [List.append_nil]
    rw [splitOnChar_of_not_mem hcore]
    rfl
  · subst hr
    have hassoc : d1 ++ '.' :: (d2 ++ '.' :: (d3 ++ '-' :: r3)) =
        (d1 ++ '.' :: (d2 ++ '.' :: d3)) ++ '-' :: r3 := by
      simp [List.append_assoc]
    rw [hassoc, splitOnChar_append r3 hcore]
    rfl

theorem parts_struct {d1 d2 d3 : Str}
    (h1 : ∀ c ∈ d1, c.isDigit = true) (h2 : ∀ c ∈ d2, c.isDigit = true)
    (h3 : ∀ c ∈ d3, c.isDigit = true) :
    splitOnChar '.' (d1 ++ '.' :: (d2 ++ '.' :: d3)) = [d1, d2, d3] := by
  rw [splitOnChar_append _ (dot_not_mem_digits h1),
      splitOnChar_append _ (dot_not_mem_digits h2),
      splitOnChar_of_not_mem (dot_not_mem_digits h3)]

theorem jsNumber_digits {d : Str} (hne : d ≠ []) (hd : ∀ c ∈ d, c.isDigit = true) :
    jsNumber d = .num (digitsToNat d) := by
  unfold jsNumber
  rw [if_neg (by simp [hne]), if_pos (List.all_eq_true.mpr hd)]

theorem verTriple3_struct {d1 d2 d3 rest : Str}
    (hne1 : d1 ≠ []) (hne2 : d2 ≠ []) (hne3 : d3 ≠ [])
    (h1 : ∀ c ∈ d1, c.isDigit = true) (h2 : ∀ c ∈ d2, c.isDigit = true)
    (h3 : ∀ c ∈ d3, c.isDigit = true)
    (hrest : rest = [] ∨ ∃ r3, rest = '-' :: r3) :
    verTriple3 (d1 ++ '.' :: (d2 ++ '.' :: (d3 ++ rest))) =
      (digitsToNat d1, digitsToNat d2, digitsToNat d3) := by
  unfold verTriple3
  rw [coreOf_struct h1 h2 h3 hrest, parts_struct h1 h2 h3]

theorem compareSemver_semverPat {a b : Str} (ha : semverPat a = true) (hb : semverPat b = true) :
    compareSemver (some a) (some b) = some (cmpTriple (verTriple3 a) (verTriple3 b)) := by
  obtain ⟨d1, d2, d3, rest, hs, hne1, hne2, hne3, h1, h2, h3, hrest⟩ := semverPat_struct ha
  obtain ⟨e1, e2, e3, rest2, hs2, hne1b, hne2b, hne3b, g1, g2, g3, hrest2⟩ := semverPat_struct hb
  have hta : truthy (some a) = true := by
    rw [hs]
    cases d1 with
    | nil => exact absurd rfl hne1
    | cons c cs => rfl
  have htb : truthy (some b) = true := by
    rw [hs2]
    cases e1 with
    | nil => exact absurd rfl hne1b
    | cons c cs => rfl
  have hparts : splitOnChar '.' ((splitOnChar '-' a).headD []) = [d1, d2, d3] := by
    rw [hs, coreOf_struct h1 h2 h3 hrest, parts_struct h1 h2 h3]
  have hparts2 : splitOnChar '.' ((splitOnChar '-' b).headD []) = [e1, e2, e3] := by
    rw [hs2, coreOf_struct g1 g2 g3 hrest2, parts_struct g1 g2 g3]
  have hta3 : verTriple3 a = (digitsToNat d1, digitsToNat d2, digitsToNat d3) := by
    rw [hs]; exact verTriple3_struct hne1 hne2 hne3 h1 h2 h3 hrest
  have htb3 : verTriple3 b = (digitsToNat e1, digitsToNat e2, digitsToNat e3) := by
    rw [hs2]; exact verTriple3_struct hne1b hne2b hne3b g1 g2 g3 hrest2
  unfold compareSemver
  rw [hta, htb]
  simp only [Bool.not_true, Bool.and_self, Bool.false_and, if_neg (by simp : ¬(false : Bool) = true)]
  simp only [ov, Option.getD_some]
  rw [hparts, hparts2]
  have hn1 : nthNum [d1, d2, d3] 0 = .num (digitsToNat d1) := by
    simp [nthNum, jsNumber_digits hne1 h1]
  have hn2 : nthNum [d1, d2, d3] 1 = .num (digitsToNat d2) := by
    simp [nthNum, jsNumber_digits hne2 h2]
  have hn3 : nthNum [d1, d2, d3] 2 = .num (digitsToNat d3) := by
    simp [nthNum, jsNumber_digits hne3 h3]
  have hm1 : nthNum [e1, e2, e3] 0 = .num (digitsToNat e1) := by
    simp [nthNum, jsNumber_digits hne1b g1]
  have hm2 : nthNum [e1, e2, e3] 1 = .num (digitsToNat e2) := by
    simp [nthNum, jsNumber_digits hne2b g2]
  have hm3 : nthNum [e1, e2, e3] 2 = .num (digitsToNat e3) := by
    simp [nthNum, jsNumber_digits hne3b g3]
  rw [hn1, hn2, hn3, hm1, hm2, hm3, hta3, htb3]
  unfold cmpTriple jsStrictNeq jsSub
  by_cases q1 : digitsToNat d1 = digitsToNat e1 <;>
    by_cases q2 : digitsToNat d2 = digitsToNat e2 <;>
      by_cases q3 : digitsToNat d3 = digitsToNat e3 <;>
        simp [q1, q2, q3]

theorem cmp45_eq {a b : Entry}
    (ha : semverPat a.pkgVersion = true) (hb : semverPat b.pkgVersion = true) :
    cmp45 a b = some
      (if cmpTriple (verTriple3 b.pkgVersion) (verTriple3 a.pkgVersion) ≠ 0
       then cmpTriple (verTriple3 b.pkgVersion) (verTriple3 a.pkgVersion)
       else (extractFhirVersion b.pkgId : Int) - (extractFhirVersion a.pkgId : Int)) := by
  unfold cmp45
  rw [compareSemver_semverPat hb ha]
  by_cases hz : cmpTriple (verTriple3 b.pkgVersion) (verTriple3 a.pkgVersion) = 0
  · simp [hz]
  · simp [hz]

theorem cmp45le_eq_verKeyLe {a b : Entry}
    (ha : semverPat a.pkgVersion = true) (hb : semverPat b.pkgVersion = true) :
    cmp45le a b = verKeyLe (entKey b) (entKey a) := by
  unfold cmp45le
  rw [cmp45_eq ha hb]
  unfold entKey
  rcases hTb : verTriple3 b.pkgVersion with ⟨b1, b2, b3⟩
  rcases hTa : verTriple3 a.pkgVersion with ⟨a1, a2, a3⟩
  by_cases c1 : b1 = a1 <;> by_cases c2 : b2 = a2 <;> by_cases c3 : b3 = a3 <;>
    simp only [cmpTriple, verKeyLe, c1, c2, c3, ne_eq, not_true_eq_false, not_false_eq_true,
      if_true, if_false, ite_true, ite_false, not_not] <;>
    simp [c1, c2, c3] <;>
    first
      | rfl
      | omega
      | (split_ifs <;> omega)

/-- C8: a match set reaching the implicit package version bias rule (more
than one match, all from implicit packages, with well-formed owning
package versions) collapses to exactly one entry, and that entry is
maximal among the matches under the order: owning package version triple
(numeric major minor patch, pre-release suffix ignored) first, then the
numeric major version embedded in the package id. -/
theorem c8_theorem (ms : List Entry) (f : LookupFilter)
    (hlen : 1 < ms.length)
    (himp : ∀ m ∈ ms, isImplicitPackage m.pkgId = true)
    (hver : ∀ m ∈ ms, semverPat m.pkgVersion = true) :
    ∃ m, trdRules4to6 ms f = [m] ∧ m ∈ ms ∧
      ∀ x ∈ ms, verKeyLe (entKey x) (entKey m) = true := by
  have hcond : (decide (ms.length > 1) && ms.all fun m => isImplicitPackage m.pkgId) = true := by
    simp only [Bool.and_eq_true, decide_eq_true_eq, List.all_eq_true]
    exact ⟨hlen, himp⟩
  have hsorted : List.Pairwise (fun x y => cmp45le x y = true) (jsSort cmp45le ms) :=
    jsSort_pairwise
      (fun x hx y hy => by
        rw [cmp45le_eq_verKeyLe (hver x hx) (hver y hy),
            cmp45le_eq_verKeyLe (hver y hy) (hver x hx)]
        exact Or.symm (verKeyLe_total (entKey x) (entKey y)))
      (fun x hx y hy z hz hxy hyz => by
        rw [cmp45le_eq_verKeyLe (hver x hx) (hver y hy)] at hxy
        rw [cmp45le_eq_verKeyLe (hver y hy) (hver z hz)] at hyz
        rw [cmp45le_eq_verKeyLe (hver x hx) (hver z hz)]
        exact verKeyLe_trans hyz hxy)
  obtain ⟨m, rest, heq⟩ : ∃ m rest, jsSort cmp45le ms = m :: rest := by
    cases hj : jsSort cmp45le ms with
    | nil =>
      have hperm := jsSort_perm cmp45le ms
      rw [hj] at hperm
      have hl := hperm.length_eq
      simp at hl
      omega
    | cons a t => exact ⟨a, t, rfl⟩
  have hm : m ∈ ms := (jsSort_mem cmp45le ms m).mp (heq ▸ List.mem_cons_self m rest)
  refine ⟨m, ?_, hm, ?_⟩
  · unfold trdRules4to6 trdRule45
    rw [if_pos hcond, heq]
  · intro x hx
    have hxs : x ∈ jsSort cmp45le ms := (jsSort_mem cmp45le ms x).mpr hx
    rw [heq] at hxs
    rcases List.mem_cons.mp hxs with rfl | hxr
    · exact verKeyLe_refl _
    · have hp := hsorted
      rw [heq] at hp
      have hle := (List.pairwise_cons.mp hp).1 x hxr
      rw [cmp45le_eq_verKeyLe (hver m hm) (hver x hx)] at hle
      exact hle

/-- Entries for the C8 witness: the same document in terminology.r4 at
7.0.0 and terminology.r5 at 7.1.0. -/
def eT1 : Entry :=
  ⟨lit "hl7.terminology.r4", lit "7.0.0", lit "vs.json", some (lit "ValueSet"),
   some (lit "vs"), none, none, some (lit "1.0.0"), none, none, none, none⟩

def eT2 : Entry :=
  ⟨lit "hl7.terminology.r5", lit "7.1.0", lit "vs.json", some (lit "ValueSet"),
   some (lit "vs"), none, none, some (lit "1.0.0"), none, none, none, none⟩

/-- C8 witness: the version bias rule applied to the two concrete
terminology copies. -/
theorem c8_witness :
    ∃ m, trdRules4to6 [eT1, eT2] {} = [m] ∧ m ∈ [eT1, eT2] ∧
      ∀ x ∈ [eT1, eT2], verKeyLe (entKey x) (entKey m) = true :=
  c8_theorem [eT1, eT2] {} (by decide) (by decide) (by decide)

theorem mem_ite_list {c : Prop} [Decidable c] {k x : Str} :
    (x ∈ if c then [k] else ([] : List Str)) ↔ c ∧ x = k := by
  split
  · rename_i hc
    simp [hc]
  · rename_i hc
    simp [hc]

theorem getA_keysFold (e : Entry) (ks : List Str) :
    ∀ (fi : List (Str × List Entry)) (k : Str) (x : Entry),
      (x ∈ (getA (ks.foldl (fun fi3 k2 => setA fi3 k2 ((getA fi3 k2).getD [] ++ [e])) fi) k).getD []) ↔
        (x ∈ (getA fi k).getD [] ∨ (x = e ∧ k ∈ ks)) := by
  induction ks with
  | nil => simp
  | cons k0 ks ih =>
    intro fi k x
    simp only [List.foldl_cons]
    rw [ih]
    by_cases hk : k0 = k
    · subst hk
      rw [getA_setA_self]
      simp only [Option.getD_some, List.mem_append, List.mem_singleton]
      constructor
      · rintro ((h | h) | ⟨rfl, h⟩)
        · exact Or.inl h
        · exact Or.inr ⟨h, List.mem_cons_self _ _⟩
        · exact Or.inr ⟨rfl, List.mem_cons_of_mem _ h⟩
      · rintro (h | ⟨rfl, _⟩)
        · exact Or.inl (Or.inl h)
        · exact Or.inl (Or.inr rfl)
    · rw [getA_setA_ne _ _ hk]
      constructor
      · rintro (h | ⟨rfl, h⟩)
        · exact Or.inl h
        · exact Or.inr ⟨rfl, List.mem_cons_of_mem _ h⟩
      · rintro (h | ⟨rfl, h⟩)
        · exact Or.inl h
        · rcases List.mem_cons.mp h with h | h
          · exact absurd h.symm hk
          · exact Or.inr ⟨rfl, h⟩

theorem getA_buildFastIndex (idx : List Entry) :
    ∀ (fi : List (Str × List Entry)) (k : Str) (x : Entry),
      (x ∈ (getA (buildFastIndex fi idx) k).getD []) ↔
        (x ∈ (getA fi k).getD [] ∨
         (x ∈ idx ∧ k ∈ getAllFastIndexKeys (entryKeySource x))) := by
  induction idx with
  | nil => simp [buildFastIndex]
  | cons e idx ih =>
    intro fi k x
    unfold buildFastIndex at ih ⊢
    simp only [List.foldl_cons]
    rw [ih]
    rw [getA_keysFold]
    constructor
    · rintro ((h | ⟨rfl, h⟩) | ⟨h1, h2⟩)
      · exact Or.inl h
      · exact Or.inr ⟨List.mem_cons_self _ _, h⟩
      · exact Or.inr ⟨List.mem_cons_of_mem _ h1, h2⟩
    · rintro (h | ⟨h1, h2⟩)
      · exact Or.inl (Or.inl h)
      · rcases List.mem_cons.mp h1 with rfl | h1
        · exact Or.inl (Or.inr ⟨rfl, h2⟩)
        · exact Or.inr ⟨h1, h2⟩

theorem keys_sub {s t : KeySource}
    (hp1 : s.pkgId = none)
    (hrt : truthy s.resourceType = true → s.resourceType = t.resourceType)
    (hurl : truthy s.url = true → s.url = t.url)
    (hid : truthy s.id = true → s.id = t.id)
    (hname : truthy s.name = true → s.name = t.name)
    (hver : truthy s.version = true → s.version = t.version)
    (hder : truthy s.derivation = true → s.derivation = t.derivation) :
    ∀ K ∈ getAllFastIndexKeys s, K ∈ getAllFastIndexKeys t := by
  intro K hK
  unfold getAllFastIndexKeys at hK ⊢
  simp only [List.mem_append, mem_ite_list] at hK ⊢
  rcases hK with ((((((((⟨hc, hKe⟩ | ⟨hc, hKe⟩) | ⟨hc, hKe⟩) | ⟨hc, hKe⟩) | ⟨hc, hKe⟩) |
    ⟨hc, hKe⟩) | ⟨hc, hKe⟩) | ⟨hc, hKe⟩) | ⟨hc, hKe⟩) | ⟨hc, hKe⟩
  · rw [hp1] at hc
    simp [truthy] at hc
  · rw [hp1] at hc
    simp [truthy] at hc
  · simp only [Bool.and_eq_true] at hc
    obtain ⟨⟨h1, h2⟩, h3⟩ := hc
    have e1 := hrt h1
    have e2 := hurl h2
    have e3 := hver h3
    subst hKe
    simp [← e1, ← e2, ← e3, h1, h2, h3]
  · simp only [Bool.and_eq_true] at hc
    obtain ⟨h1, h2⟩ := hc
    have e1 := hrt h1
    have e2 := hurl h2
    subst hKe
    simp [← e1, ← e2, h1, h2]
  · simp only [Bool.and_eq_true] at hc
    obtain ⟨h1, h2⟩ := hc
    have e1 := hurl h1
    have e2 := hver h2
    subst hKe
    simp [← e1, ← e2, h1, h2]
  · have e1 := hurl hc
    subst hKe
    simp [← e1, hc]
  · simp only [Bool.and_eq_true] at hc
    obtain ⟨⟨h1, h2⟩, h3⟩ := hc
    have e1 := hrt h1
    have e2 := hname h2
    have e3 := hver h3
    subst hKe
    simp [← e1, ← e2, ← e3, h1, h2, h3]
  · simp only [Bool.and_eq_true] at hc
    obtain ⟨⟨h1, h2⟩, h3⟩ := hc
    have e1 := hrt h1
    have e2 := hid h2
    have e3 := hver h3
    subst hKe
    simp [← e1, ← e2, ← e3, h1, h2, h3]
  · simp only [Bool.and_eq_true] at hc
    obtain ⟨h1, h2⟩ := hc
    have e1 := hrt h1
    have e2 := hname h2
    subst hKe
    simp [← e1, ← e2, h1, h2]
  · simp only [Bool.and_eq_true] at hc
    obtain ⟨h1, h2⟩ := hc
    have e1 := hrt h1
    have e2 := hid h2
    subst hKe
    simp [← e1, ← e2, h1, h2]

/-- The stamped entries of every in-scope package. -/
def allEntries (C : Collaborator) (ctx : List Pkg) : List Entry :=
  ctx.flatMap (stamped C)

/-- Deduplication by composite key with first-occurrence wins, the
resultMap accumulation of lookupMeta in isolation. -/
def dedupByKey (l : List Entry) : List Entry :=
  valuesA (l.foldl (fun m e => setIfAbsent m (compositeKey e) e) [])

/-- The fast-path candidates of a filter against a fast index: the union
of the buckets hit by the filter's composite keys. -/
def fastCand (fi : List (Str × List Entry)) (f : LookupFilter) : List Entry :=
  (getAllFastIndexKeys (filterKeySource f)).flatMap (fun k => (getA fi k).getD [])

/-- The first entry of a list carrying a given composite key. -/
def firstWithKey (l : List Entry) (k : Str) : Option Entry :=
  l.find? (fun e => compositeKey e == k)

theorem getA_foldSetIfAbsent (l : List Entry) :
    ∀ (m : List (Str × Entry)) (k : Str),
      getA (l.foldl (fun m2 e => setIfAbsent m2 (compositeKey e) e) m) k =
        (getA m k).or (firstWithKey l k) := by
  induction l with
  | nil =>
    intro m k
    simp [firstWithKey, List.find?]
  | cons e l ih =>
    intro m k
    simp only [List.foldl_cons]
    rw [ih]
    by_cases hk : compositeKey e = k
    · subst hk
      have hfw : firstWithKey (e :: l) (compositeKey e) = some e := by
        simp [firstWithKey, List.find?]
      rw [hfw]
      cases hm : getA m (compositeKey e) with
      | some w =>
        rw [setIfAbsent_of_present e hm, hm]
        cases h2 : firstWithKey l (compositeKey e) <;> rfl
      | none =>
        rw [setIfAbsent_of_absent e hm]
        rw [show getA (m ++ [(compositeKey e, e)]) (compositeKey e) = some e from ?_]
        · rfl
        · have := getA_setA_self m (compositeKey e) e
          rw [setA_of_absent e hm] at this
          exact this
    · have hfw : firstWithKey (e :: l) k = firstWithKey l k := by
        simp only [firstWithKey, List.find?]
        rw [show (compositeKey e == k) = false from by simp [hk]]
      rw [hfw]
      have hsets : getA (setIfAbsent m (compositeKey e) e) k = getA m k := by
        cases hm : getA m (compositeKey e) with
        | some w => rw [setIfAbsent_of_present e hm]
        | none =>
          rw [setIfAbsent_of_absent e hm]
          have h2 := getA_setA_ne m e hk
          rw [setA_of_absent e hm] at h2
          exact h2
      rw [hsets]

/-- Keys of an association map. -/
def keysA (m : List (Str × α)) : List Str := m.map Prod.fst

theorem getA_none_iff {m : List (Str × α)} {k : Str} :
    getA m k = none ↔ k ∉ keysA m := by
  induction m with
  | nil => simp [getA, keysA]
  | cons p t ih =>
    obtain ⟨k2, v2⟩ := p
    show (if k2 = k then some v2 else getA t k) = none ↔ k ∉ k2 :: keysA t
    by_cases hk : k2 = k
    · subst hk
      simp
    · rw [if_neg hk, ih]
      constructor
      · intro h hmem
        rcases List.mem_cons.mp hmem with h2 | h2
        · exact hk h2.symm
        · exact h h2
      · intro h h2
        exact h (List.mem_cons_of_mem _ h2)

theorem nodup_keysA_setIfAbsent {m : List (Str × α)} {k : Str} {v : α}
    (h : (keysA m).Nodup) : (keysA (setIfAbsent m k v)).Nodup := by
  cases hm : getA m k with
  | some w => rw [setIfAbsent_of_present v hm]; exact h
  | none =>
    rw [setIfAbsent_of_absent v hm]
    have hk : k ∉ keysA m := getA_none_iff.mp hm
    show ((m ++ [(k, v)]).map Prod.fst).Nodup
    rw [List.map_append]
    refine List.Nodup.append h (List.nodup_singleton k) ?_
    intro a ha hb
    simp only [List.map_cons, List.map_nil, List.mem_singleton] at hb
    subst hb
    exact hk ha

theorem nodup_keysA_fold (l : List Entry) :
    ∀ (m : List (Str × Entry)), (keysA m).Nodup →
      (keysA (l.foldl (fun m2 e => setIfAbsent m2 (compositeKey e) e) m)).Nodup := by
  induction l with
  | nil => intro m h; exact h
  | cons e l ih =>
    intro m h
    exact ih _ (nodup_keysA_setIfAbsent h)

theorem mem_valuesA_iff_getA {m : List (Str × α)} (hnd : (keysA m).Nodup) (x : α) :
    x ∈ valuesA m ↔ ∃ k, getA m k = some x := by
  constructor
  · intro hx
    induction m with
    | nil => exact absurd hx (by simp [valuesA])
    | cons p t ih =>
      obtain ⟨k2, v2⟩ := p
      have hx2 : x ∈ v2 :: valuesA t := hx
      have hnd2 := List.nodup_cons.mp hnd
      rcases List.mem_cons.mp hx2 with hv | hv
      · refine ⟨k2, ?_⟩
        show (if k2 = k2 then some v2 else getA t k2) = some x
        rw [if_pos rfl, hv]
      · obtain ⟨k, hk⟩ := ih hnd2.2 hv
        by_cases hkk : k2 = k
        · subst hkk
          have hmem : k2 ∈ keysA t := by
            by_contra hcon
            rw [getA_none_iff.mpr hcon] at hk
            exact Option.noConfusion hk
          exact absurd hmem hnd2.1
        · refine ⟨k, ?_⟩
          show (if k2 = k then some v2 else getA t k) = some x
          rw [if_neg hkk]
          exact hk
  · rintro ⟨k, hk⟩
    exact getA_mem_valuesA hk

theorem mem_dedupByKey {l : List Entry}
    (hu : ∀ a ∈ l, ∀ b ∈ l, compositeKey a = compositeKey b → a = b) (x : Entry) :
    x ∈ dedupByKey l ↔ x ∈ l := by
  unfold dedupByKey
  rw [mem_valuesA_iff_getA (nodup_keysA_fold l [] (by simp [keysA]))]
  constructor
  · rintro ⟨k, hk⟩
    rw [getA_foldSetIfAbsent] at hk
    simp only [getA, Option.none_or] at hk
    exact List.mem_of_find?_eq_some hk
  · intro hx
    refine ⟨compositeKey x, ?_⟩
    rw [getA_foldSetIfAbsent]
    simp only [getA, Option.none_or]
    have hs : (firstWithKey l (compositeKey x)).isSome := by
      rw [firstWithKey, List.find?_isSome]
      exact ⟨x, hx, by simp⟩
    obtain ⟨y, hy⟩ := Option.isSome_iff_exists.mp hs
    have hym : y ∈ l := List.mem_of_find?_eq_some hy
    have hyk : compositeKey y = compositeKey x := by
      have := List.find?_some hy
      simpa using this
    rw [hy, hu y hym x hx hyk]

theorem matchesFilter_parts {e : Entry} {f : LookupFilter} (hm : matchesFilter e f = true) :
    optMatch f.resourceType e.resourceType = true ∧ optMatch f.id e.id = true ∧
    optMatch f.url e.url = true ∧ optMatch f.name e.name = true ∧
    optMatch f.version e.version = true ∧ optMatch f.derivation e.derivation = true := by
  unfold matchesFilter at hm
  simp only [Bool.and_eq_true] at hm
  obtain ⟨⟨⟨⟨⟨⟨⟨⟨⟨h1, h2⟩, h3⟩, h4⟩, h5⟩, h6⟩, h7⟩, h8⟩, h9⟩, h10⟩ := hm
  exact ⟨h1, h2, h3, h4, h5, h9⟩

theorem optMatch_agree {fv ev : Option Str} (h : optMatch fv ev = true)
    (ht : truthy fv = true) : fv = ev := by
  cases fv with
  | none => simp [truthy] at ht
  | some v =>
    simp only [optMatch, beq_iff_eq] at h
    rw [h]

theorem filterKeys_sub_entry {e : Entry} {f : LookupFilter}
    (hm : matchesFilter e f = true) :
    ∀ K ∈ getAllFastIndexKeys (filterKeySource f), K ∈ getAllFastIndexKeys (entryKeySource e) := by
  obtain ⟨h1, h2, h3, h4, h5, h6⟩ := matchesFilter_parts hm
  exact keys_sub rfl
    (fun ht => optMatch_agree h1 ht)
    (fun ht => optMatch_agree h3 ht)
    (fun ht => optMatch_agree h2 ht)
    (fun ht => optMatch_agree h4 ht)
    (fun ht => optMatch_agree h5 ht)
    (fun ht => optMatch_agree h6 ht)

/-- C5: on a state where every in-scope package has been indexed into the
fast index, whenever the union of the buckets hit by the filter's
composite keys is non-empty, filtering those candidates through the match
predicate yields, after deduplication by filename, package id, package
version, exactly the deduplicated result of a full linear scan of all
in-scope entries (stated as set equality; composite keys are assumed to
identify entries uniquely, as package file indexes list each file once). -/
theorem c5_theorem (C : Collaborator) (ctx : List Pkg) (f : LookupFilter)
    (hck : ∀ a ∈ allEntries C ctx, ∀ b ∈ allEntries C ctx,
      compositeKey a = compositeKey b → a = b)
    (hne : fastCand (buildFastIndex [] (allEntries C ctx)) f ≠ []) :
    ∀ x, (x ∈ dedupByKey ((fastCand (buildFastIndex [] (allEntries C ctx)) f).filter
            (fun e => matchesFilter e f)) ↔
          x ∈ dedupByKey ((allEntries C ctx).filter (fun e => matchesFilter e f))) := by
  intro x
  have hsub : ∀ y, y ∈ fastCand (buildFastIndex [] (allEntries C ctx)) f →
      y ∈ allEntries C ctx := by
    intro y hy
    unfold fastCand at hy
    obtain ⟨k, _, hk2⟩ := List.mem_flatMap.mp hy
    have := (getA_buildFastIndex (allEntries C ctx) [] k y).mp hk2
    rcases this with h | ⟨h, _⟩
    · simp [getA] at h
    · exact h
  have hiff : ∀ y, (y ∈ (fastCand (buildFastIndex [] (allEntries C ctx)) f).filter
        (fun e => matchesFilter e f) ↔
      y ∈ (allEntries C ctx).filter (fun e => matchesFilter e f)) := by
    intro y
    simp only [List.mem_filter]
    constructor
    · rintro ⟨hy, hmy⟩
      exact ⟨hsub y hy, hmy⟩
    · rintro ⟨hy, hmy⟩
      refine ⟨?_, hmy⟩
      obtain ⟨K0, hK0⟩ : ∃ K0, K0 ∈ getAllFastIndexKeys (filterKeySource f) := by
        cases hks : getAllFastIndexKeys (filterKeySource f) with
        | nil =>
          exfalso
          apply hne
          unfold fastCand
          rw [hks]
          rfl
        | cons a t => exact ⟨a, hks ▸ List.mem_cons_self a t⟩
      have hKe : K0 ∈ getAllFastIndexKeys (entryKeySource y) :=
        filterKeys_sub_entry hmy K0 hK0
      unfold fastCand
      refine List.mem_flatMap.mpr ⟨K0, hK0, ?_⟩
      exact (getA_buildFastIndex (allEntries C ctx) [] K0 y).mpr (Or.inr ⟨hy, hKe⟩)
  have hckf : ∀ a ∈ (fastCand (buildFastIndex [] (allEntries C ctx)) f).filter
        (fun e => matchesFilter e f),
      ∀ b ∈ (fastCand (buildFastIndex [] (allEntries C ctx)) f).filter
        (fun e => matchesFilter e f),
      compositeKey a = compositeKey b → a = b := by
    intro a ha b hb hab
    exact hck a (hsub a (List.mem_of_mem_filter ha)) b (hsub b (List.mem_of_mem_filter hb)) hab
  have hckl : ∀ a ∈ (allEntries C ctx).filter (fun e => matchesFilter e f),
      ∀ b ∈ (allEntries C ctx).filter (fun e => matchesFilter e f),
      compositeKey a = compositeKey b → a = b := by
    intro a ha b hb hab
    exact hck a (List.mem_of_mem_filter ha) b (List.mem_of_mem_filter hb) hab
  rw [mem_dedupByKey hckf, mem_dedupByKey hckl]
  exact hiff x

def wPkg : Pkg := ⟨lit "wp", lit "1.0.0"⟩

def wRaw : RawFile :=
  ⟨lit "u.json", some (lit "ValueSet"), some (lit "u1"), some (lit "u"),
   none, some (lit "1.0.0"), none, none, none, none⟩

/-- Collaborator for the C5 and C6 witnesses: one package holding one
document. -/
def wC : Collaborator :=
  ⟨fun r => match r with
            | .obj p => p
            | .str s => ⟨s, lit "1"⟩,
   fun _ => [],
   fun p => if p = wPkg then [wRaw] else []⟩

/-- C5 witness: the fast path equivalence at a concrete indexed state. -/
theorem c5_witness :
    stampEntry wPkg wRaw ∈ dedupByKey ((fastCand (buildFastIndex []
            (allEntries wC [wPkg])) { url := some (lit "u") }).filter
              (fun e => matchesFilter e { url := some (lit "u") })) ↔
      stampEntry wPkg wRaw ∈ dedupByKey ((allEntries wC [wPkg]).filter
              (fun e => matchesFilter e { url := some (lit "u") })) :=
  c5_theorem wC [wPkg] { url := some (lit "u") } (by decide) (by decide)
    (stampEntry wPkg wRaw)

/-- Package-scope admission: when a package restriction is active, the key
must belong to the allowed closure. -/
def AllowOk (allowed : Option (List Str)) (k : Str) : Prop :=
  ∀ a, allowed = some a → k ∈ a

theorem skip_eq_false_iff (allowed : Option (List Str)) (k : Str) :
    (match allowed with
     | some a => decide (k ∉ a)
     | none => false) = false ↔ AllowOk allowed k := by
  cases allowed with
  | none => simp [AllowOk]
  | some a => simp [AllowOk]

theorem stamped_fields {C : Collaborator} {p : Pkg} {e : Entry} (h : e ∈ stamped C p) :
    e.pkgId = p.id ∧ e.pkgVersion = p.version := by
  unfold stamped at h
  obtain ⟨r, _, hr⟩ := List.mem_map.mp h
  rw [← hr]
  exact ⟨rfl, rfl⟩

theorem entryPkgKey_stamped {C : Collaborator} {p : Pkg} {e : Entry}
    (h : e ∈ stamped C p) : entryPkgKey e = pkgKey p := by
  obtain ⟨h1, h2⟩ := stamped_fields h
  unfold entryPkgKey pkgKey
  rw [h1, h2]

/-- Coherence of the caches relative to a scope: the index cache holds
exactly stamped package indexes of in-scope packages, every fast-index
bucket entry comes from an indexed in-scope package, and every entry of an
indexed package sits in the bucket of each of its keys. -/
def Coherent (C : Collaborator) (ctx : List Pkg) (st : ExpState) : Prop :=
  (∀ k idx, getA st.indexCache k = some idx →
     ∃ p, p ∈ ctx ∧ k = pkgKey p ∧ idx = stamped C p) ∧
  (∀ k e, e ∈ (getA st.fastIndex k).getD [] →
     ∃ p, p ∈ ctx ∧ e ∈ stamped C p ∧ getA st.indexCache (pkgKey p) = some (stamped C p)) ∧
  (∀ p, p ∈ ctx → ∀ idx, getA st.indexCache (pkgKey p) = some idx →
     ∀ e ∈ stamped C p, ∀ K ∈ getAllFastIndexKeys (entryKeySource e),
       e ∈ (getA st.fastIndex K).getD [])

/-- An entry admitted by the per-package loop body for a given package. -/
def CanonAt (C : Collaborator) (nf : LookupFilter) (allowed : Option (List Str))
    (p : Pkg) (e : Entry) : Prop :=
  AllowOk allowed (pkgKey p) ∧ e ∈ stamped C p ∧ matchesFilter e nf = true

/-- The canonical lookup result set over a scope. -/
def Canon (C : Collaborator) (ctx : List Pkg) (nf : LookupFilter)
    (allowed : Option (List Str)) (e : Entry) : Prop :=
  ∃ p, p ∈ ctx ∧ CanonAt C nf allowed p e

theorem coherent_empty (C : Collaborator) (ctx : List Pkg) :
    Coherent C ctx ⟨[], []⟩ := by
  refine ⟨?_, ?_, ?_⟩
  · intro k idx h; exact absurd h (by simp [getA])
  · intro k e h; exact absurd h (by simp [getA])
  · intro p _ idx h; exact absurd h (by simp [getA])

theorem ctx_key_inj {ctx : List Pkg} (h : (ctx.map pkgKey).Nodup) {p q : Pkg}
    (hp : p ∈ ctx) (hq : q ∈ ctx) (he : pkgKey p = pkgKey q) : p = q :=
  List.inj_on_of_nodup_map h hp hq he

theorem coherent_build {C : Collaborator} {ctx : List Pkg} {st : ExpState} {p : Pkg}
    (hkeys : (ctx.map pkgKey).Nodup)
    (hco : Coherent C ctx st) (hp : p ∈ ctx)
    (hnone : getA st.indexCache (pkgKey p) = none) :
    Coherent C ctx ⟨setA st.indexCache (pkgKey p) (stamped C p),
                    buildFastIndex st.fastIndex (stamped C p)⟩ := by
  obtain ⟨h1, h2, h3⟩ := hco
  refine ⟨?_, ?_, ?_⟩
  · intro k idx hk
    by_cases hkp : pkgKey p = k
    · subst hkp
      rw [getA_setA_self] at hk
      exact ⟨p, hp, rfl, (Option.some.inj hk).symm⟩
    · rw [getA_setA_ne _ _ hkp] at hk
      exact h1 k idx hk
  · intro k e hk
    rcases (getA_buildFastIndex (stamped C p) st.fastIndex k e).mp hk with h | ⟨he, _⟩
    · obtain ⟨q, hq, he2, hidx⟩ := h2 k e h
      refine ⟨q, hq, he2, ?_⟩
      by_cases hkq : pkgKey p = pkgKey q
      · rw [hkq] at hnone
        rw [hnone] at hidx
        exact Option.noConfusion hidx
      · rw [getA_setA_ne _ _ hkq]
        exact hidx
    · exact ⟨p, hp, he, by rw [getA_setA_self]⟩
  · intro q hq idx hidx e he K hK
    by_cases hkq : pkgKey p = pkgKey q
    · have hpq : p = q := ctx_key_inj hkeys hp hq hkq
      subst hpq
      exact (getA_buildFastIndex (stamped C p) st.fastIndex K e).mpr (Or.inr ⟨he, hK⟩)
    · rw [show getA (setA st.indexCache (pkgKey p) (stamped C p)) (pkgKey q) =
            getA st.indexCache (pkgKey q) from getA_setA_ne _ _ hkq] at hidx
      have hold := h3 q hq idx hidx e he K hK
      exact (getA_buildFastIndex (stamped C p) st.fastIndex K e).mpr (Or.inl hold)

theorem collectBody_cases (nf : LookupFilter) (allowed : Option (List Str))
    (rm : List (Str × Entry)) (e : Entry) :
    (collectBody nf allowed rm e = rm ∧
      ¬(AllowOk allowed (entryPkgKey e) ∧ matchesFilter e nf = true)) ∨
    (collectBody nf allowed rm e = setIfAbsent rm (compositeKey e) e ∧
      AllowOk allowed (entryPkgKey e) ∧ matchesFilter e nf = true) := by
  unfold collectBody
  cases hskip : (match allowed with
      | some a => decide (entryPkgKey e ∉ a)
      | none => false) with
  | true =>
    left
    rw [if_pos rfl]
    refine ⟨rfl, ?_⟩
    rintro ⟨hok, _⟩
    rw [(skip_eq_false_iff allowed (entryPkgKey e)).mpr hok] at hskip
    exact Bool.noConfusion hskip
  | false =>
    rw [if_neg (by simp)]
    have hok : AllowOk allowed (entryPkgKey e) := (skip_eq_false_iff _ _).mp hskip
    cases hm : matchesFilter e nf with
    | false =>
      left
      exact ⟨by simp, fun hcc => Bool.noConfusion hcc.2⟩
    | true =>
      right
      exact ⟨by simp, hok, rfl⟩

theorem keyDisc_setIfAbsent {rm : List (Str × Entry)} {e : Entry}
    (hkd : ∀ k v, getA rm k = some v → k = compositeKey v) :
    ∀ k v, getA (setIfAbsent rm (compositeKey e) e) k = some v → k = compositeKey v := by
  intro k v hk
  cases hp : getA rm (compositeKey e) with
  | some w =>
    rw [setIfAbsent_of_present e hp] at hk
    exact hkd k v hk
  | none =>
    rw [setIfAbsent, hp] at hk
    by_cases hke : compositeKey e = k
    · subst hke
      rw [getA_setA_self] at hk
      rw [← Option.some.inj hk]
    · rw [getA_setA_ne _ _ hke] at hk
      exact hkd k v hk

theorem collect_fold_mono (nf : LookupFilter) (allowed : Option (List Str))
    (cands : List Entry) :
    ∀ (rm : List (Str × Entry)) (v : Entry), v ∈ valuesA rm →
      v ∈ valuesA (cands.foldl (collectBody nf allowed) rm) := by
  induction cands with
  | nil => intro rm v hv; exact hv
  | cons c cs ih =>
    intro rm v hv
    simp only [List.foldl_cons]
    apply ih
    rcases collectBody_cases nf allowed rm c with ⟨heq, _⟩ | ⟨heq, _⟩
    · rw [heq]; exact hv
    · rw [heq]; exact mem_valuesA_setIfAbsent rm _ c v hv

theorem collect_fold_keyDisc (nf : LookupFilter) (allowed : Option (List Str))
    (cands : List Entry) :
    ∀ (rm : List (Str × Entry)),
      (∀ k v, getA rm k = some v → k = compositeKey v) →
      ∀ k v, getA (cands.foldl (collectBody nf allowed) rm) k = some v → k = compositeKey v := by
  induction cands with
  | nil => intro rm hkd; exact hkd
  | cons c cs ih =>
    intro rm hkd
    simp only [List.foldl_cons]
    apply ih
    rcases collectBody_cases nf allowed rm c with ⟨heq, _⟩ | ⟨heq, _⟩
    · rw [heq]; exact hkd
    · rw [heq]; exact keyDisc_setIfAbsent hkd

theorem collect_fold_sound (nf : LookupFilter) (allowed : Option (List Str))
    (cands : List Entry) :
    ∀ (rm : List (Str × Entry)) (v : Entry),
      v ∈ valuesA (cands.foldl (collectBody nf allowed) rm) →
      v ∈ valuesA rm ∨
        (v ∈ cands ∧ AllowOk allowed (entryPkgKey v) ∧ matchesFilter v nf = true) := by
  induction cands with
  | nil => intro rm v hv; exact Or.inl hv
  | cons c cs ih =>
    intro rm v hv
    simp only [List.foldl_cons] at hv
    rcases collectBody_cases nf allowed rm c with ⟨heq, _⟩ | ⟨heq, hcol⟩
    · rw [heq] at hv
      rcases ih rm v hv with h | ⟨h1, h2⟩
      · exact Or.inl h
      · exact Or.inr ⟨List.mem_cons_of_mem _ h1, h2⟩
    · rw [heq] at hv
      rcases ih _ v hv with h | ⟨h1, h2⟩
      · rcases mem_valuesA_setIfAbsent_elim h with h | h
        · exact Or.inl h
        · subst h
          exact Or.inr ⟨List.mem_cons_self _ _, hcol⟩
      · exact Or.inr ⟨List.mem_cons_of_mem _ h1, h2⟩

theorem collect_fold_complete (nf : LookupFilter) (allowed : Option (List Str))
    (W : Entry → Prop)
    (hck : ∀ a b, W a → W b → compositeKey a = compositeKey b → a = b)
    (cands : List Entry) (hWc : ∀ e ∈ cands, W e) :
    ∀ (rm : List (Str × Entry)),
      (∀ k v, getA rm k = some v → k = compositeKey v) →
      (∀ v ∈ valuesA rm, W v) →
      ∀ e ∈ cands, AllowOk allowed (entryPkgKey e) → matchesFilter e nf = true →
        e ∈ valuesA (cands.foldl (collectBody nf allowed) rm) := by
  induction cands with
  | nil => intro rm _ _ e he; exact absurd he (by simp)
  | cons c cs ih =>
    intro rm hkd hWrm e he hok hm
    simp only [List.foldl_cons]
    rcases List.mem_cons.mp he with rfl | he2
    · rcases collectBody_cases nf allowed rm e with ⟨_, hnc⟩ | ⟨heq, _⟩
      · exact absurd ⟨hok, hm⟩ hnc
      · rw [heq]
        apply collect_fold_mono
        cases hp : getA rm (compositeKey e) with
        | some w =>
          have hwk : compositeKey e = compositeKey w := hkd _ _ hp
          have hwv : w ∈ valuesA rm := getA_mem_valuesA hp
          have hwe : w = e := hck w e (hWrm w hwv) (hWc e (List.mem_cons_self _ _)) hwk.symm
          rw [setIfAbsent_of_present e hp]
          rw [← hwe]
          exact hwv
        | none =>
          rw [setIfAbsent_of_absent e hp]
          show e ∈ (rm ++ [(compositeKey e, e)]).map Prod.snd
          rw [List.map_append]
          exact List.mem_append_right _ (List.mem_singleton.mpr rfl)
    · rcases collectBody_cases nf allowed rm c with ⟨heq, _⟩ | ⟨heq, _⟩
      · rw [heq]
        exact ih (fun x hx => hWc x (List.mem_cons_of_mem _ hx)) rm hkd hWrm e he2 hok hm
      · rw [heq]
        refine ih (fun x hx => hWc x (List.mem_cons_of_mem _ hx)) _
          (keyDisc_setIfAbsent hkd) ?_ e he2 hok hm
        intro v hv
        rcases mem_valuesA_setIfAbsent_elim hv with h | h
        · exact hWrm v h
        · rw [h]
          exact hWc c (List.mem_cons_self _ _)

/-- The loop invariant of lookupMeta: coherent caches, result entries
stored under their composite keys, and every collected value canonical. -/
def LoopInv (C : Collaborator) (ctx : List Pkg) (nf : LookupFilter)
    (allowed : Option (List Str)) (acc : List (Str × Entry) × ExpState) : Prop :=
  Coherent C ctx acc.2 ∧
  (∀ k v, getA acc.1 k = some v → k = compositeKey v) ∧
  (∀ v ∈ valuesA acc.1, Canon C ctx nf allowed v)

theorem lookupStep_eq_skip {C : Collaborator} {nf : LookupFilter}
    {allowed : Option (List Str)} {acc : List (Str × Entry) × ExpState} {p : Pkg}
    (hskip : (match allowed with
              | some a => decide (pkgKey p ∉ a)
              | none => false) = true) :
    lookupStep C nf allowed acc p = acc := by
  simp only [lookupStep, hskip]
  rfl

theorem lookupStep_eq_cached {C : Collaborator} {nf : LookupFilter}
    {allowed : Option (List Str)} {acc : List (Str × Entry) × ExpState} {p : Pkg}
    {idx : List Entry}
    (hskip : (match allowed with
              | some a => decide (pkgKey p ∉ a)
              | none => false) = false)
    (hc : getA acc.2.indexCache (pkgKey p) = some idx) :
    lookupStep C nf allowed acc p =
      ((if ((getAllFastIndexKeys (filterKeySource nf)).flatMap
              (fun k => (getA acc.2.fastIndex k).getD [])).length > 0
        then (getAllFastIndexKeys (filterKeySource nf)).flatMap
              (fun k => (getA acc.2.fastIndex k).getD [])
        else idx).foldl (collectBody nf allowed) acc.1, acc.2) := by
  simp only [lookupStep, hskip, hc]
  rfl

theorem lookupStep_eq_fresh {C : Collaborator} {nf : LookupFilter}
    {allowed : Option (List Str)} {acc : List (Str × Entry) × ExpState} {p : Pkg}
    (hskip : (match allowed with
              | some a => decide (pkgKey p ∉ a)
              | none => false) = false)
    (hc : getA acc.2.indexCache (pkgKey p) = none) :
    lookupStep C nf allowed acc p =
      ((if ((getAllFastIndexKeys (filterKeySource nf)).flatMap
              (fun k => (getA (buildFastIndex acc.2.fastIndex (stamped C p)) k).getD [])).length > 0
        then (getAllFastIndexKeys (filterKeySource nf)).flatMap
              (fun k => (getA (buildFastIndex acc.2.fastIndex (stamped C p)) k).getD [])
        else stamped C p).foldl (collectBody nf allowed) acc.1,
       ⟨setA acc.2.indexCache (pkgKey p) (stamped C p),
        buildFastIndex acc.2.fastIndex (stamped C p)⟩) := by
  simp only [lookupStep, hskip, hc]
  rfl

/-- Fast-path candidates of lookupMeta at a given cache state. -/
def fcOf (st2 : ExpState) (nf : LookupFilter) : List Entry :=
  (getAllFastIndexKeys (filterKeySource nf)).flatMap
    (fun k => (getA st2.fastIndex k).getD [])

/-- The candidate list examined for a package: the fast candidates when
non-empty, otherwise the package's own index. -/
def candsOf (C : Collaborator) (st2 : ExpState) (nf : LookupFilter) (p : Pkg) : List Entry :=
  if (fcOf st2 nf).length > 0 then fcOf st2 nf else stamped C p

theorem step_core {C : Collaborator} {ctx : List Pkg} {nf : LookupFilter}
    {allowed : Option (List Str)}
    (hck : ∀ a b, (∃ q, q ∈ ctx ∧ a ∈ stamped C q) → (∃ q, q ∈ ctx ∧ b ∈ stamped C q) →
      compositeKey a = compositeKey b → a = b)
    {p : Pkg} (hp : p ∈ ctx) {rm : List (Str × Entry)} {st2 : ExpState}
    (hco : Coherent C ctx st2)
    (hpidx : getA st2.indexCache (pkgKey p) = some (stamped C p))
    (hkd : ∀ k v, getA rm k = some v → k = compositeKey v)
    (hsound : ∀ v ∈ valuesA rm, Canon C ctx nf allowed v) :
    LoopInv C ctx nf allowed ((candsOf C st2 nf p).foldl (collectBody nf allowed) rm, st2) ∧
    (∀ v ∈ valuesA rm, v ∈ valuesA ((candsOf C st2 nf p).foldl (collectBody nf allowed) rm)) ∧
    (∀ e, CanonAt C nf allowed p e →
      e ∈ valuesA ((candsOf C st2 nf p).foldl (collectBody nf allowed) rm)) := by
  have hWcand : ∀ e ∈ candsOf C st2 nf p, ∃ q, q ∈ ctx ∧ e ∈ stamped C q := by
    intro e he
    unfold candsOf at he
    split at he
    · unfold fcOf at he
      obtain ⟨k, _, hk2⟩ := List.mem_flatMap.mp he
      obtain ⟨q, hq, he2, _⟩ := hco.2.1 k e hk2
      exact ⟨q, hq, he2⟩
    · exact ⟨p, hp, he⟩
  refine ⟨⟨hco, collect_fold_keyDisc nf allowed _ rm hkd, ?_⟩, ?_, ?_⟩
  · intro v hv
    rcases collect_fold_sound nf allowed _ rm v hv with h | ⟨h1, h2, h3⟩
    · exact hsound v h
    · obtain ⟨q, hq, hvq⟩ := hWcand v h1
      refine ⟨q, hq, ?_, hvq, h3⟩
      rw [← entryPkgKey_stamped hvq]
      exact h2
  · intro v hv
    exact collect_fold_mono nf allowed _ rm v hv
  · intro e hce
    obtain ⟨hok, he, hm⟩ := hce
    have hecand : e ∈ candsOf C st2 nf p := by
      unfold candsOf
      cases hks : getAllFastIndexKeys (filterKeySource nf) with
      | nil =>
        rw [if_neg (by unfold fcOf; rw [hks]; simp)]
        exact he
      | cons K0 Ks =>
        have hK0 : K0 ∈ getAllFastIndexKeys (filterKeySource nf) :=
          hks ▸ List.mem_cons_self K0 Ks
        have hKe : K0 ∈ getAllFastIndexKeys (entryKeySource e) :=
          filterKeys_sub_entry hm K0 hK0
        have hbucket : e ∈ (getA st2.fastIndex K0).getD [] :=
          hco.2.2 p hp (stamped C p) hpidx e he K0 hKe
        have hefc : e ∈ fcOf st2 nf := by
          unfold fcOf
          exact List.mem_flatMap.mpr ⟨K0, hK0, hbucket⟩
        rw [if_pos (List.length_pos_of_mem hefc)]
        exact hefc
    refine collect_fold_complete nf allowed
      (fun x => ∃ q, q ∈ ctx ∧ x ∈ stamped C q) hck _ hWcand rm hkd
      (fun v hv => ?_) e hecand ?_ hm
    · obtain ⟨q, hq, h1, h2, _⟩ := hsound v hv
      exact ⟨q, hq, h2⟩
    · rw [entryPkgKey_stamped he]
      exact hok

theorem lookupStep_spec {C : Collaborator} {ctx : List Pkg} {nf : LookupFilter}
    {allowed : Option (List Str)}
    (hkeys : (ctx.map pkgKey).Nodup)
    (hck : ∀ a b, (∃ q, q ∈ ctx ∧ a ∈ stamped C q) → (∃ q, q ∈ ctx ∧ b ∈ stamped C q) →
      compositeKey a = compositeKey b → a = b)
    {p : Pkg} (hp : p ∈ ctx) {acc : List (Str × Entry) × ExpState}
    (hinv : LoopInv C ctx nf allowed acc) :
    LoopInv C ctx nf allowed (lookupStep C nf allowed acc p) ∧
    (∀ v ∈ valuesA acc.1, v ∈ valuesA (lookupStep C nf allowed acc p).1) ∧
    (∀ e, CanonAt C nf allowed p e → e ∈ valuesA (lookupStep C nf allowed acc p).1) := by
  obtain ⟨hco, hkd, hsound⟩ := hinv
  cases hskip : (match allowed with
                 | some a => decide (pkgKey p ∉ a)
                 | none => false) with
  | true =>
    rw [lookupStep_eq_skip hskip]
    refine ⟨⟨hco, hkd, hsound⟩, fun v hv => hv, ?_⟩
    rintro e ⟨hok, _, _⟩
    exfalso
    rw [(skip_eq_false_iff allowed (pkgKey p)).mpr hok] at hskip
    exact Bool.noConfusion hskip
  | false =>
    cases hc : getA acc.2.indexCache (pkgKey p) with
    | some idx =>
      obtain ⟨q, hq, hkq, hidx⟩ := hco.1 (pkgKey p) idx hc
      have hqp : q = p := ctx_key_inj hkeys hq hp hkq.symm
      subst hqp
      have hres : lookupStep C nf allowed acc q =
          ((candsOf C acc.2 nf q).foldl (collectBody nf allowed) acc.1, acc.2) := by
        rw [lookupStep_eq_cached hskip hc, hidx]
        rfl
      rw [hres]
      have hpidx : getA acc.2.indexCache (pkgKey q) = some (stamped C q) := by
        rw [hc, hidx]
      exact step_core hck hp hco hpidx hkd hsound
    | none =>
      have hres : lookupStep C nf allowed acc p =
          ((candsOf C ⟨setA acc.2.indexCache (pkgKey p) (stamped C p),
                       buildFastIndex acc.2.fastIndex (stamped C p)⟩ nf p).foldl
             (collectBody nf allowed) acc.1,
           ⟨setA acc.2.indexCache (pkgKey p) (stamped C p),
            buildFastIndex acc.2.fastIndex (stamped C p)⟩) := by
        rw [lookupStep_eq_fresh hskip hc]
        rfl
      rw [hres]
      have hco2 := coherent_build hkeys hco hp hc
      have hpidx : getA (setA acc.2.indexCache (pkgKey p) (stamped C p)) (pkgKey p) =
          some (stamped C p) := getA_setA_self _ _ _
      exact step_core hck hp hco2 hpidx hkd hsound

theorem lookup_fold_spec {C : Collaborator} {ctx : List Pkg} {nf : LookupFilter}
    {allowed : Option (List Str)}
    (hkeys : (ctx.map pkgKey).Nodup)
    (hck : ∀ a b, (∃ q, q ∈ ctx ∧ a ∈ stamped C q) → (∃ q, q ∈ ctx ∧ b ∈ stamped C q) →
      compositeKey a = compositeKey b → a = b) :
    ∀ (pr : List Pkg), (∀ q ∈ pr, q ∈ ctx) →
    ∀ acc, LoopInv C ctx nf allowed acc →
      LoopInv C ctx nf allowed (pr.foldl (lookupStep C nf allowed) acc) ∧
      (∀ v ∈ valuesA acc.1, v ∈ valuesA (pr.foldl (lookupStep C nf allowed) acc).1) ∧
      (∀ q ∈ pr, ∀ e, CanonAt C nf allowed q e →
        e ∈ valuesA (pr.foldl (lookupStep C nf allowed) acc).1) := by
  intro pr
  induction pr with
  | nil =>
    intro _ acc hinv
    exact ⟨hinv, fun v hv => hv, fun q hq => absurd hq (by simp)⟩
  | cons q qs ih =>
    intro hsub acc hinv
    have hq : q ∈ ctx := hsub q (List.mem_cons_self _ _)
    obtain ⟨hinv1, hmono1, hcomp1⟩ := lookupStep_spec hkeys hck hq hinv
    obtain ⟨hinv2, hmono2, hcomp2⟩ :=
      ih (fun x hx => hsub x (List.mem_cons_of_mem _ hx)) _ hinv1
    simp only [List.foldl_cons]
    refine ⟨hinv2, ?_, ?_⟩
    · intro v hv
      exact hmono2 v (hmono1 v hv)
    · intro x hx e hce
      rcases List.mem_cons.mp hx with rfl | hx2
      · exact hmono2 e (hcomp1 e hce)
      · exact hcomp2 x hx2 e hce

theorem lookupMeta_spec (C : Collaborator) (skipEx : Bool) (fuel : Nat) (ctx : List Pkg)
    (st : ExpState) (f : LookupFilter)
    (hkeys : (ctx.map pkgKey).Nodup)
    (hck : ∀ a ∈ allEntries C ctx, ∀ b ∈ allEntries C ctx,
      compositeKey a = compositeKey b → a = b)
    (hcoh : Coherent C ctx st) :
    (∀ e, e ∈ (lookupMeta C skipEx fuel ctx st f).1 ↔
       Canon C ctx (normalizePipedFilter f)
         (allowedOf C skipEx fuel (normalizePipedFilter f)) e) ∧
    Coherent C ctx (lookupMeta C skipEx fuel ctx st f).2 := by
  have hckW : ∀ a b, (∃ q, q ∈ ctx ∧ a ∈ stamped C q) → (∃ q, q ∈ ctx ∧ b ∈ stamped C q) →
      compositeKey a = compositeKey b → a = b := by
    intro a b ⟨qa, hqa, ha⟩ ⟨qb, hqb, hb⟩ hab
    exact hck a (List.mem_flatMap.mpr ⟨qa, hqa, ha⟩) b (List.mem_flatMap.mpr ⟨qb, hqb, hb⟩) hab
  have hinv0 : LoopInv C ctx (normalizePipedFilter f)
      (allowedOf C skipEx fuel (normalizePipedFilter f)) ([], st) := by
    refine ⟨hcoh, ?_, ?_⟩
    · intro k v hk; exact absurd hk (by simp [getA])
    · intro v hv; exact absurd hv (by simp [valuesA])
  obtain ⟨hinv, _, hcomp⟩ := lookup_fold_spec hkeys hckW ctx (fun q hq => hq) ([], st) hinv0
  constructor
  · intro e
    constructor
    · intro he
      exact hinv.2.2 e he
    · rintro ⟨p, hp, hca⟩
      exact hcomp p hp e hca
  · exact hinv.1

/-- C6: with an unchanged canonical scope and collaborator, two successive
lookupMeta calls with the same filter on the same instance return the same
set of entries (the second call runs on the caches the first call left
behind).  Hypotheses: coherent starting caches, distinct package keys in
the scope, and composite keys identifying entries uniquely. -/
theorem c6_theorem (C : Collaborator) (skipEx : Bool) (fuel : Nat) (ctx : List Pkg)
    (st0 : ExpState) (f : LookupFilter)
    (hkeys : (ctx.map pkgKey).Nodup)
    (hck : ∀ a ∈ allEntries C ctx, ∀ b ∈ allEntries C ctx,
      compositeKey a = compositeKey b → a = b)
    (hcoh : Coherent C ctx st0) :
    ∀ e, (e ∈ (lookupMeta C skipEx fuel ctx st0 f).1 ↔
          e ∈ (lookupMeta C skipEx fuel ctx
                 ((lookupMeta C skipEx fuel ctx st0 f).2) f).1) := by
  have h1 := lookupMeta_spec C skipEx fuel ctx st0 f hkeys hck hcoh
  have h2 := lookupMeta_spec C skipEx fuel ctx
    ((lookupMeta C skipEx fuel ctx st0 f).2) f hkeys hck h1.2
  intro e
  rw [h1.1 e, h2.1 e]

/-- C6 witness: the idempotence at a concrete one-package scope starting
from empty caches. -/
theorem c6_witness :
    stampEntry wPkg wRaw ∈
        (lookupMeta wC false 1 [wPkg] ⟨[], []⟩ { url := some (lit "u") }).1 ↔
      stampEntry wPkg wRaw ∈
        (lookupMeta wC false 1 [wPkg]
           ((lookupMeta wC false 1 [wPkg] ⟨[], []⟩ { url := some (lit "u") }).2)
           { url := some (lit "u") }).1 :=
  c6_theorem wC false 1 [wPkg] ⟨[], []⟩ { url := some (lit "u") }
    (by decide) (by decide) (coherent_empty wC [wPkg]) (stampEntry wPkg wRaw)

/-!
Correctness of the dependency walk of _collectDependencies: the visited
set computed by visit is exactly the set of keys of packages reachable
along paths that avoid the initial visited set, provided the fuel exceeds
the number of reachable keys.
-/

/-- Reachability along dependency edges avoiding a visited key set: every
node of the path, endpoints included, has a key outside vis. -/
inductive AReach (deps : Pkg → List Pkg) (vis : List Str) : Pkg → Pkg → Prop where
  | refl (p : Pkg) (h : pkgKey p ∉ vis) : AReach deps vis p p
  | tail {p q r : Pkg} (hpq : AReach deps vis p q) (hr : r ∈ deps q)
      (hk : pkgKey r ∉ vis) : AReach deps vis p r

/-- Plain reachability along dependency edges. -/
def Reaches (deps : Pkg → List Pkg) : Pkg → Pkg → Prop :=
  Relation.ReflTransGen (fun a b => b ∈ deps a)

theorem AReach_start_not_mem {deps : Pkg → List Pkg} {vis : List Str} {p q : Pkg}
    (h : AReach deps vis p q) : pkgKey p ∉ vis := by
  induction h with
  | refl h => exact h
  | tail _ _ _ ih => exact ih

theorem AReach_end_not_mem {deps : Pkg → List Pkg} {vis : List Str} {p q : Pkg}
    (h : AReach deps vis p q) : pkgKey q ∉ vis := by
  cases h with
  | refl h => exact h
  | tail _ _ hk => exact hk

theorem AReach_mono {deps : Pkg → List Pkg} {vis vis' : List Str} {p q : Pkg}
    (hsub : ∀ x ∈ vis, x ∈ vis') (h : AReach deps vis' p q) : AReach deps vis p q := by
  induction h with
  | refl h => exact AReach.refl _ (fun hm => h (hsub _ hm))
  | tail _ hr hk ih => exact AReach.tail ih hr (fun hm => hk (hsub _ hm))

theorem AReach_prepend {deps : Pkg → List Pkg} {vis : List Str} {p d q : Pkg}
    (hp : pkgKey p ∉ vis) (hd : d ∈ deps p) (h : AReach deps vis d q) :
    AReach deps vis p q := by
  induction h with
  | refl h => exact AReach.tail (AReach.refl p hp) hd h
  | tail _ hr hk ih => exact AReach.tail ih hr hk

theorem AReach_trans {deps : Pkg → List Pkg} {vis : List Str} {a b c : Pkg}
    (h₁ : AReach deps vis a b) (h₂ : AReach deps vis b c) : AReach deps vis a c := by
  induction h₂ with
  | refl _ => exact h₁
  | tail _ hr hk ih => exact AReach.tail ih hr hk

theorem AReach_nil_iff {deps : Pkg → List Pkg} {p q : Pkg} :
    AReach deps [] p q ↔ Reaches deps p q := by
  constructor
  · intro h
    induction h with
    | refl _ => exact Relation.ReflTransGen.refl
    | tail _ hr _ ih => exact Relation.ReflTransGen.tail ih hr
  · intro h
    induction h with
    | refl => exact AReach.refl p (by simp)
    | tail _ hr ih => exact AReach.tail ih hr (by simp)

theorem AReach_good {deps : Pkg → List Pkg} {Good : Pkg → Prop}
    (hGstep : ∀ a b, Good a → b ∈ deps a → Good b) {vis : List Str} {p q : Pkg}
    (hp : Good p) (h : AReach deps vis p q) : Good q := by
  induction h with
  | refl _ => exact hp
  | tail _ hr _ ih => exact hGstep _ _ ih hr

theorem AReach_pathSplit {deps : Pkg → List Pkg} {vis T : List Str} {d q : Pkg}
    (hsub : ∀ x ∈ vis, x ∈ T) (h : AReach deps vis d q) :
    AReach deps T d q ∨
      ∃ w, pkgKey w ∈ T ∧ AReach deps vis d w ∧
        (q = w ∨ ∃ z, z ∈ deps w ∧ AReach deps T z q) := by
  induction h with
  | refl hp =>
    by_cases hT : pkgKey d ∈ T
    · exact Or.inr ⟨d, hT, AReach.refl d hp, Or.inl rfl⟩
    · exact Or.inl (AReach.refl d hT)
  | tail hdm hr hk ih =>
    rename_i m r
    by_cases hT : pkgKey r ∈ T
    · exact Or.inr ⟨r, hT, AReach.tail hdm hr hk, Or.inl rfl⟩
    · rcases ih with h | ⟨w, hwT, hdw, hm⟩
      · exact Or.inl (AReach.tail h hr hT)
      · rcases hm with heq | ⟨z, hz, hzm⟩
        · exact Or.inr ⟨w, hwT, hdw, Or.inr ⟨r, heq ▸ hr, AReach.refl r hT⟩⟩
        · exact Or.inr ⟨w, hwT, hdw, Or.inr ⟨z, hz, AReach.tail hzm hr hT⟩⟩

theorem AReach_front {deps : Pkg → List Pkg} {Good : Pkg → Prop}
    (hGstep : ∀ a b, Good a → b ∈ deps a → Good b)
    (hGinj : ∀ a b, Good a → Good b → pkgKey a = pkgKey b → a = b)
    {vis : List Str} {p q : Pkg} (hGp : Good p) (h : AReach deps vis p q) :
    q = p ∨ ∃ d, d ∈ deps p ∧ AReach deps (pkgKey p :: vis) d q := by
  induction h with
  | refl _ => exact Or.inl rfl
  | tail hpm hr hk ih =>
    rename_i m r
    have hGm : Good m := AReach_good hGstep hGp hpm
    have hGr : Good r := hGstep _ _ hGm hr
    by_cases hrp : pkgKey r = pkgKey p
    · exact Or.inl (hGinj _ _ hGr hGp hrp)
    · rcases ih with rfl | ⟨d, hd, hdm⟩
      · exact Or.inr ⟨r, hr, AReach.refl r (by
          intro hmem
          rcases List.mem_cons.mp hmem with h2 | h2
          · exact hrp h2
          · exact hk h2)⟩
      · refine Or.inr ⟨d, hd, AReach.tail hdm hr ?_⟩
        intro hmem
        rcases List.mem_cons.mp hmem with h2 | h2
        · exact hrp h2
        · exact hk h2

theorem visit_fold_aux (deps : Pkg → List Pkg) (Good : Pkg → Prop)
    (hGstep : ∀ a b, Good a → b ∈ deps a → Good b)
    (hGinj : ∀ a b, Good a → Good b → pkgKey a = pkgKey b → a = b)
    (n : Nat) {vis : List Str} {p : Pkg} (hGp : Good p)
    (hvisit : ∀ (S : List Str) (d : Pkg), Good d →
      (∀ x ∈ pkgKey p :: vis, x ∈ S) → d ∈ deps p →
      ∀ x, x ∈ visit deps n S d ↔ (x ∈ S ∨ ∃ q, AReach deps S d q ∧ x = pkgKey q)) :
    ∀ (L procd : List Pkg) (S : List Str),
      (∀ d ∈ L, d ∈ deps p) → (∀ d ∈ procd, d ∈ deps p) →
      (∀ x ∈ pkgKey p :: vis, x ∈ S) →
      (∀ x ∈ S, x ∈ pkgKey p :: vis ∨
        ∃ d ∈ procd, ∃ q, AReach deps (pkgKey p :: vis) d q ∧ x = pkgKey q) →
      (∀ d ∈ procd, ∀ q, AReach deps (pkgKey p :: vis) d q → pkgKey q ∈ S) →
      (∀ x ∈ pkgKey p :: vis, x ∈ L.foldl (fun acc q => visit deps n acc q) S) ∧
      (∀ x ∈ L.foldl (fun acc q => visit deps n acc q) S,
        x ∈ pkgKey p :: vis ∨
        ∃ d ∈ procd ++ L, ∃ q, AReach deps (pkgKey p :: vis) d q ∧ x = pkgKey q) ∧
      (∀ d ∈ procd ++ L, ∀ q, AReach deps (pkgKey p :: vis) d q →
        pkgKey q ∈ L.foldl (fun acc q => visit deps n acc q) S) := by
  intro L
  induction L with
  | nil =>
    intro procd S _ _ hvs hSound hComp
    refine ⟨hvs, ?_, ?_⟩
    · intro x hx
      rcases hSound x hx with h | ⟨d, hd, q, hq, he⟩
      · exact Or.inl h
      · exact Or.inr ⟨d, List.mem_append_left _ hd, q, hq, he⟩
    · intro d hd q hq
      rw [List.append_nil] at hd
      exact hComp d hd q hq
  | cons d L' ihL =>
    intro procd S hL hpr hvs hSound hComp
    have hd : d ∈ deps p := hL d (List.mem_cons_self _ _)
    have hGd : Good d := hGstep _ _ hGp hd
    have hchar := hvisit S d hGd hvs hd
    have hvs₁ : ∀ x ∈ pkgKey p :: vis, x ∈ visit deps n S d := by
      intro x hx
      exact (hchar x).mpr (Or.inl (hvs x hx))
    have hSound₁ : ∀ x ∈ visit deps n S d, x ∈ pkgKey p :: vis ∨
        ∃ d2 ∈ procd ++ [d], ∃ q, AReach deps (pkgKey p :: vis) d2 q ∧ x = pkgKey q := by
      intro x hx
      rcases (hchar x).mp hx with h | ⟨q, hq, he⟩
      · rcases hSound x h with h2 | ⟨d2, hd2, q, hq, he⟩
        · exact Or.inl h2
        · exact Or.inr ⟨d2, List.mem_append_left _ hd2, q, hq, he⟩
      · exact Or.inr ⟨d, List.mem_append_right _ (List.mem_singleton.mpr rfl), q,
          AReach_mono hvs hq, he⟩
    have hComp₁ : ∀ d2 ∈ procd ++ [d], ∀ q, AReach deps (pkgKey p :: vis) d2 q →
        pkgKey q ∈ visit deps n S d := by
      intro d2 hd2 q hq
      rcases List.mem_append.mp hd2 with hd2 | hd2
      · exact (hchar _).mpr (Or.inl (hComp d2 hd2 q hq))
      · rcases List.mem_singleton.mp hd2 with rfl
        rcases AReach_pathSplit hvs hq with h | ⟨w, hwS, hdw, hcase⟩
        · exact (hchar _).mpr (Or.inr ⟨q, h, rfl⟩)
        · rcases hcase with rfl | ⟨z, hz, hzq⟩
          · exact (hchar _).mpr (Or.inl hwS)
          · rcases hSound _ hwS with h2 | ⟨dj, hdj, q₀, hq₀, heq⟩
            · exact absurd h2 (AReach_end_not_mem hdw)
            · have hGw : Good w := AReach_good hGstep hGd hdw
              have hGdj : Good dj := hGstep _ _ hGp (hpr dj hdj)
              have hGq₀ : Good q₀ := AReach_good hGstep hGdj hq₀
              have hwq : w = q₀ := hGinj w q₀ hGw hGq₀ heq
              have hdjw : AReach deps (pkgKey p :: vis) dj w := hwq ▸ hq₀
              have hznv : pkgKey z ∉ pkgKey p :: vis := by
                intro hmem
                exact AReach_start_not_mem hzq (hvs _ hmem)
              have hdjz : AReach deps (pkgKey p :: vis) dj z :=
                AReach.tail hdjw hz hznv
              have hzqv : AReach deps (pkgKey p :: vis) z q := AReach_mono hvs hzq
              have hdjq : AReach deps (pkgKey p :: vis) dj q := AReach_trans hdjz hzqv
              exact (hchar _).mpr (Or.inl (hComp dj hdj q hdjq))
    have hres := ihL (procd ++ [d]) (visit deps n S d)
      (fun x hx => hL x (List.mem_cons_of_mem _ hx))
      (fun x hx => by
        rcases List.mem_append.mp hx with h | h
        · exact hpr x h
        · rcases List.mem_singleton.mp h with rfl
          exact hd)
      hvs₁ hSound₁ hComp₁
    simp only [List.foldl_cons]
    refine ⟨hres.1, ?_, ?_⟩
    · intro x hx
      rcases hres.2.1 x hx with h | ⟨d2, hd2, q, hq, he⟩
      · exact Or.inl h
      · refine Or.inr ⟨d2, ?_, q, hq, he⟩
        rw [List.append_cons]
        exact hd2
    · intro d2 hd2 q hq
      refine hres.2.2 d2 ?_ q hq
      rw [← List.append_cons]
      exact hd2

theorem visit_exact (deps : Pkg → List Pkg) (Good : Pkg → Prop)
    (hGstep : ∀ a b, Good a → b ∈ deps a → Good b)
    (hGinj : ∀ a b, Good a → Good b → pkgKey a = pkgKey b → a = b) :
    ∀ (n : Nat) (KU : Finset Str) (vis : List Str) (p : Pkg),
      Good p → (∀ q, AReach deps vis p q → pkgKey q ∈ KU) → KU.card < n →
      ∀ x, x ∈ visit deps n vis p ↔
        (x ∈ vis ∨ ∃ q, AReach deps vis p q ∧ x = pkgKey q)
  | 0, KU, vis, p => by
    intro _ _ hcard
    exact absurd hcard (by omega)
  | n + 1, KU, vis, p => by
    intro hGp hKU hcard
    by_cases hv : pkgKey p ∈ vis
    · intro x
      rw [show visit deps (n + 1) vis p = vis from by simp [visit, hv]]
      constructor
      · exact Or.inl
      · rintro (h | ⟨q, hq, _⟩)
        · exact h
        · exact absurd hv (AReach_start_not_mem hq)
    · have hKUp : pkgKey p ∈ KU := hKU p (AReach.refl p hv)
      have hcard2 : (KU.erase (pkgKey p)).card < n := by
        rw [Finset.card_erase_of_mem hKUp]
        have hpos : 0 < KU.card := Finset.card_pos.mpr ⟨pkgKey p, hKUp⟩
        omega
      have hvisit : ∀ (S : List Str) (d : Pkg), Good d →
          (∀ x ∈ pkgKey p :: vis, x ∈ S) → d ∈ deps p →
          ∀ x, x ∈ visit deps n S d ↔
            (x ∈ S ∨ ∃ q, AReach deps S d q ∧ x = pkgKey q) := by
        intro S d hGd hS hd
        refine visit_exact deps Good hGstep hGinj n (KU.erase (pkgKey p)) S d hGd ?_ hcard2
        intro q hq
        have h1 : AReach deps (pkgKey p :: vis) d q := AReach_mono hS hq
        have h2 : AReach deps vis d q :=
          AReach_mono (fun x hx => List.mem_cons_of_mem _ hx) h1
        have h3 : AReach deps vis p q := AReach_prepend hv hd h2
        have h5 : pkgKey q ∉ S := AReach_end_not_mem hq
        have h6 : pkgKey q ≠ pkgKey p :=
          fun he => h5 (he ▸ hS _ (List.mem_cons_self _ _))
        exact Finset.mem_erase.mpr ⟨h6, hKU q h3⟩
      obtain ⟨hvsF, hSoundF, hCompF⟩ := visit_fold_aux deps Good hGstep hGinj n hGp hvisit
        (deps p) [] (pkgKey p :: vis) (fun d hd => hd) (by simp)
        (fun x hx => hx) (fun x hx => Or.inl hx) (by simp)
      intro x
      rw [show visit deps (n + 1) vis p =
            (deps p).foldl (fun acc q => visit deps n acc q) (pkgKey p :: vis) from by
          simp [visit, hv]]
      constructor
      · intro hx
        rcases hSoundF x hx with h | ⟨d, hd, q, hq, he⟩
        · rcases List.mem_cons.mp h with rfl | h2
          · exact Or.inr ⟨p, AReach.refl p hv, rfl⟩
          · exact Or.inl h2
        · have h2 : AReach deps vis d q :=
            AReach_mono (fun y hy => List.mem_cons_of_mem _ hy) hq
          have hd2 : d ∈ deps p := by simpa using hd
          exact Or.inr ⟨q, AReach_prepend hv hd2 h2, he⟩
      · rintro (h | ⟨q, hq, rfl⟩)
        · exact hvsF x (List.mem_cons_of_mem _ h)
        · rcases AReach_front hGstep hGinj hGp hq with rfl | ⟨d, hd, hdq⟩
          · exact hvsF _ (List.mem_cons_self _ _)
          · exact hCompF d (by simpa using hd) q hdq

/-!
_loadContext correctness machinery: properties of folds of
insert-or-replace over association maps, and the exact closure computed by
_collectDependencies.
-/

theorem foldl_preserve {f : γ → β → γ} (I : γ → Prop) :
    ∀ (l : List β) (a : γ), I a → (∀ c x, I c → x ∈ l → I (f c x)) → I (l.foldl f a) := by
  intro l
  induction l with
  | nil => intro a ha _; exact ha
  | cons x t ih =>
    intro a ha hstep
    exact ih (f a x) (hstep a x ha (List.mem_cons_self _ _))
      (fun c y hc hy => hstep c y hc (List.mem_cons_of_mem _ hy))

theorem mem_setA_elim {m : List (Str × α)} {k : Str} {v : α} {x : Str × α}
    (hx : x ∈ setA m k v) : x ∈ m ∨ x = (k, v) := by
  induction m with
  | nil =>
    right
    have h2 : x ∈ [(k, v)] := hx
    simpa using h2
  | cons p t ih =>
    obtain ⟨k2, v2⟩ := p
    by_cases hk : k2 = k
    · rw [show setA ((k2, v2) :: t) k v = (k, v) :: t from by simp [setA, hk]] at hx
      rcases List.mem_cons.mp hx with h | h
      · exact Or.inr h
      · exact Or.inl (List.mem_cons_of_mem _ h)
    · rw [show setA ((k2, v2) :: t) k v = (k2, v2) :: setA t k v from by
          simp [setA, hk]] at hx
      rcases List.mem_cons.mp hx with h | h
      · exact Or.inl (h ▸ List.mem_cons_self _ _)
      · rcases ih h with h2 | h2
        · exact Or.inl (List.mem_cons_of_mem _ h2)
        · exact Or.inr h2

theorem getA_isSome_setA {m : List (Str × α)} {k2 : Str} (k : Str) (v : α)
    (h : (getA m k2).isSome) : (getA (setA m k v) k2).isSome := by
  by_cases hk : k = k2
  · subst hk
    rw [getA_setA_self]
    rfl
  · rw [getA_setA_ne m v hk]
    exact h

theorem keysA_setA_of_present {m : List (Str × α)} {k : Str} {w : α} (v : α)
    (h : getA m k = some w) : keysA (setA m k v) = keysA m := by
  induction m with
  | nil => exact absurd h (by simp [getA])
  | cons p t ih =>
    obtain ⟨k2, v2⟩ := p
    by_cases hk : k2 = k
    · rw [show setA ((k2, v2) :: t) k v = (k, v) :: t from by simp [setA, hk]]
      show k :: keysA t = k2 :: keysA t
      rw [hk]
    · simp only [getA, if_neg hk] at h
      rw [show setA ((k2, v2) :: t) k v = (k2, v2) :: setA t k v from by
          simp [setA, hk]]
      show k2 :: keysA (setA t k v) = k2 :: keysA t
      rw [ih h]

theorem keysA_setA_nodup {m : List (Str × α)} (k : Str) (v : α)
    (h : (keysA m).Nodup) : (keysA (setA m k v)).Nodup := by
  cases hg : getA m k with
  | some w =>
    rw [keysA_setA_of_present v hg]
    exact h
  | none =>
    rw [setA_of_absent v hg]
    have hk : k ∉ keysA m := getA_none_iff.mp hg
    show ((m ++ [(k, v)]).map Prod.fst).Nodup
    rw [List.map_append]
    refine List.Nodup.append h (List.nodup_singleton k) ?_
    intro a ha hb
    simp only [List.map_cons, List.map_nil, List.mem_singleton] at hb
    subst hb
    exact hk ha

theorem getA_foldSetA_of_ne (key : β → Str) (val : β → α) :
    ∀ (l : List β) (m : List (Str × α)) (k : Str), (∀ x ∈ l, key x ≠ k) →
      getA (l.foldl (fun m2 x => setA m2 (key x) (val x)) m) k = getA m k := by
  intro l
  induction l with
  | nil => intro m k _; rfl
  | cons x t ih =>
    intro m k hne
    have h1 : key x ≠ k := hne x (List.mem_cons_self _ _)
    show getA (t.foldl (fun m2 y => setA m2 (key y) (val y)) (setA m (key x) (val x))) k
        = getA m k
    rw [ih _ k (fun y hy => hne y (List.mem_cons_of_mem _ hy))]
    exact getA_setA_ne m (val x) h1

theorem getA_foldSetA_self (key : β → Str) (val : β → α) :
    ∀ (l : List β) (m : List (Str × α)) (k : Str) (p : α),
      (∀ x ∈ l, key x = k → val x = p) → (∃ x ∈ l, key x = k) →
      getA (l.foldl (fun m2 x => setA m2 (key x) (val x)) m) k = some p := by
  intro l
  induction l with
  | nil =>
    intro m k p _ hex
    rcases hex with ⟨x, hx, _⟩
    exact absurd hx (List.not_mem_nil x)
  | cons x t ih =>
    intro m k p hall hex
    by_cases hex2 : ∃ y ∈ t, key y = k
    · exact ih _ k p (fun y hy => hall y (List.mem_cons_of_mem _ hy)) hex2
    · rcases hex with ⟨y, hy, hky⟩
      rcases List.mem_cons.mp hy with heq | hy2
      · subst heq
        push_neg at hex2
        have hvp : val y = p := hall y (List.mem_cons_self _ _) hky
        show getA (t.foldl (fun m2 z => setA m2 (key z) (val z))
              (setA m (key y) (val y))) k = some p
        rw [getA_foldSetA_of_ne key val t _ k hex2, hky, getA_setA_self, hvp]
      · exact absurd ⟨y, hy2, hky⟩ hex2

theorem getA_foldSetA_cases (key : β → Str) (val : β → α) :
    ∀ (l : List β) (m : List (Str × α)) (k : Str) (p : α),
      getA (l.foldl (fun m2 x => setA m2 (key x) (val x)) m) k = some p →
      getA m k = some p ∨ ∃ x ∈ l, key x = k ∧ val x = p := by
  intro l
  induction l with
  | nil => intro m k p h; exact Or.inl h
  | cons x t ih =>
    intro m k p h
    rcases ih _ k p h with h2 | ⟨y, hy, hky, hvy⟩
    · change getA (setA m (key x) (val x)) k = some p at h2
      by_cases hk : key x = k
      · rw [hk, getA_setA_self] at h2
        exact Or.inr ⟨x, List.mem_cons_self _ _, hk, Option.some.inj h2⟩
      · rw [getA_setA_ne m (val x) hk] at h2
        exact Or.inl h2
    · exact Or.inr ⟨y, List.mem_cons_of_mem _ hy, hky, hvy⟩

theorem getA_isSome_foldSetA (key : β → Str) (val : β → α) (l : List β)
    (m : List (Str × α)) {k : Str} (h : (getA m k).isSome) :
    (getA (l.foldl (fun m2 x => setA m2 (key x) (val x)) m) k).isSome := by
  refine foldl_preserve (fun c => (getA c k).isSome = true) l m h ?_
  intro c x hc _
  exact getA_isSome_setA (key x) (val x) hc

theorem Reaches_good {deps : Pkg → List Pkg} {Good : Pkg → Prop}
    (hGstep : ∀ a b, Good a → b ∈ deps a → Good b) {p q : Pkg}
    (hp : Good p) (h : Reaches deps p q) : Good q := by
  induction h with
  | refl => exact hp
  | tail _ hr ih => exact hGstep _ _ ih hr

theorem collectDependencies_exact (C : Collaborator) (skipEx : Bool)
    {U : List Pkg} (hU : ∀ p ∈ U, CleanPkg p)
    (hclosed : ∀ p ∈ U, ∀ d ∈ effDeps C skipEx p, d ∈ U)
    {fuel : Nat} (hfuel : (U.map pkgKey).toFinset.card < fuel)
    {r : Pkg} (hr : r ∈ U) (x : Str) :
    x ∈ collectDependencies C skipEx fuel r ↔
      ∃ q, Reaches (effDeps C skipEx) r q ∧ x = pkgKey q := by
  have hGstep : ∀ a b, a ∈ U → b ∈ effDeps C skipEx a → b ∈ U :=
    fun a b ha hb => hclosed a ha b hb
  have hGinj : ∀ a b, a ∈ U → b ∈ U → pkgKey a = pkgKey b → a = b :=
    fun a b ha hb heq => pkgKey_inj (hU a ha) (hU b hb) heq
  have hKU : ∀ q, AReach (effDeps C skipEx) [] r q →
      pkgKey q ∈ (U.map pkgKey).toFinset := by
    intro q hq
    have hqU : q ∈ U := Reaches_good hGstep hr (AReach_nil_iff.mp hq)
    exact List.mem_toFinset.mpr (List.mem_map_of_mem _ hqU)
  have hmain := visit_exact (effDeps C skipEx) (· ∈ U) hGstep hGinj fuel
    (U.map pkgKey).toFinset [] r hr hKU hfuel x
  unfold collectDependencies
  rw [hmain]
  constructor
  · rintro (h | ⟨q, hq, he⟩)
    · exact absurd h (List.not_mem_nil x)
    · exact ⟨q, AReach_nil_iff.mp hq, he⟩
  · rintro ⟨q, hq, he⟩
    exact Or.inr ⟨q, AReach_nil_iff.mpr hq, he⟩

/-- The deduplicated initial roots of _loadContext (values of the rootMap
keyed by id#version). -/
def initialRootsOf (C : Collaborator) (context : List PkgRef) : List Pkg :=
  valuesA (context.foldl
    (fun m e => setA m (pkgKey (C.toPackageObject e)) (C.toPackageObject e)) [])

/-- The per-root closure map of _loadContext. -/
def rootClosuresOf (C : Collaborator) (skipEx : Bool) (fuel : Nat)
    (context : List PkgRef) : List (Str × List Str) :=
  (initialRootsOf C context).foldl
    (fun m r => setA m (pkgKey r) (collectDependencies C skipEx fuel r)) []

/-- The key-to-package map of _loadContext, accumulated over every root
closure. -/
def keyToPkgOf (C : Collaborator) (skipEx : Bool) (fuel : Nat)
    (context : List PkgRef) : List (Str × Pkg) :=
  (initialRootsOf C context).foldl
    (fun m r => (collectDependencies C skipEx fuel r).foldl
      (fun m2 k => setA m2 k (splitKeyPkg k)) m) []

/-- The redundancy test of _loadContext: some other root key's closure
contains the key. -/
def isRedundantIn (C : Collaborator) (skipEx : Bool) (fuel : Nat)
    (context : List PkgRef) (k : Str) : Bool :=
  ((initialRootsOf C context).map pkgKey).any (fun rk =>
    rk ≠ k && (match getA (rootClosuresOf C skipEx fuel context) rk with
               | some cl => k ∈ cl
               | none => false))

/-- The non-redundant roots of _loadContext. -/
def minimalRoots0Of (C : Collaborator) (skipEx : Bool) (fuel : Nat)
    (context : List PkgRef) : List Pkg :=
  (initialRootsOf C context).filter
    (fun r => !isRedundantIn C skipEx fuel context (pkgKey r))

/-- The minimal root list of _loadContext, before sorting, with the
degenerate full-cycle fallback. -/
def minimalRootsOf (C : Collaborator) (skipEx : Bool) (fuel : Nat)
    (context : List PkgRef) : List Pkg :=
  if (minimalRoots0Of C skipEx fuel context).isEmpty
      && !(initialRootsOf C context).isEmpty then
    match sortPackages (initialRootsOf C context) with
    | r :: _ => [r]
    | [] => []
  else minimalRoots0Of C skipEx fuel context

/-- The final context map of _loadContext: the union of the minimal
roots' closures, materialized through the key-to-package map. -/
def finalMapOf (C : Collaborator) (skipEx : Bool) (fuel : Nat)
    (context : List PkgRef) : List (Str × Pkg) :=
  (minimalRootsOf C skipEx fuel context).foldl
    (fun m mr =>
      match getA (rootClosuresOf C skipEx fuel context) (pkgKey mr) with
      | some closure => closure.foldl
          (fun m2 k =>
            match getA (keyToPkgOf C skipEx fuel context) k with
            | some pobj => setA m2 k pobj
            | none => m2) m
      | none => m)
    []

theorem rcm_eq (C : Collaborator) (skipEx : Bool) (fuel : Nat) :
    ∀ (roots : List Pkg) (a : List (Str × List Str)) (b : List (Str × Pkg)),
      roots.foldl (fun (acc : List (Str × List Str) × List (Str × Pkg)) r =>
        (setA acc.1 (pkgKey r) (collectDependencies C skipEx fuel r),
         (collectDependencies C skipEx fuel r).foldl
           (fun m2 k => setA m2 k (splitKeyPkg k)) acc.2)) (a, b)
      = (roots.foldl
           (fun m r => setA m (pkgKey r) (collectDependencies C skipEx fuel r)) a,
         roots.foldl
           (fun m r => (collectDependencies C skipEx fuel r).foldl
             (fun m2 k => setA m2 k (splitKeyPkg k)) m) b) := by
  intro roots
  induction roots with
  | nil => intro a b; rfl
  | cons r t ih => intro a b; exact ih _ _

theorem loadContext_eq (C : Collaborator) (skipEx : Bool) (fuel : Nat)
    (context : List PkgRef) :
    loadContext C skipEx fuel context =
      ⟨sortPackages (minimalRootsOf C skipEx fuel context),
       sortPackages (valuesA (finalMapOf C skipEx fuel context))⟩ := by
  simp only [loadContext, minimalRootsOf, minimalRoots0Of, isRedundantIn, finalMapOf,
    rootClosuresOf, keyToPkgOf, initialRootsOf]
  rw [rcm_eq]

theorem getA_mem_pair {m : List (Str × α)} {k : Str} {v : α}
    (h : getA m k = some v) : (k, v) ∈ m := by
  induction m with
  | nil => exact absurd h (by simp [getA])
  | cons p t ih =>
    obtain ⟨k2, v2⟩ := p
    by_cases hk : k2 = k
    · rw [show getA ((k2, v2) :: t) k = some v2 from by simp [getA, hk]] at h
      have he : (k, v) = (k2, v2) := by
        rw [hk, Option.some.inj h]
      exact he ▸ List.mem_cons_self _ _
    · simp only [getA, if_neg hk] at h
      exact List.mem_cons_of_mem _ (ih h)

theorem mem_initialRootsOf {C : Collaborator} {context : List PkgRef}
    (hclean : ∀ e ∈ context, CleanPkg (C.toPackageObject e)) (r : Pkg) :
    r ∈ initialRootsOf C context ↔ ∃ e ∈ context, C.toPackageObject e = r := by
  have hnd : (keysA (context.foldl
      (fun m e => setA m (pkgKey (C.toPackageObject e)) (C.toPackageObject e))
      [])).Nodup := by
    refine foldl_preserve (fun m => (keysA m).Nodup) context [] (by simp [keysA]) ?_
    intro c x hc _
    exact keysA_setA_nodup _ _ hc
  unfold initialRootsOf
  rw [mem_valuesA_iff_getA hnd]
  constructor
  · rintro ⟨k, hk⟩
    rcases getA_foldSetA_cases (fun e => pkgKey (C.toPackageObject e))
        (fun e => C.toPackageObject e) context [] k r hk with h | ⟨e, he, _, hv⟩
    · exact absurd h (by simp [getA])
    · exact ⟨e, he, hv⟩
  · rintro ⟨e, he, hv⟩
    refine ⟨pkgKey r, ?_⟩
    refine getA_foldSetA_self (fun e2 => pkgKey (C.toPackageObject e2))
      (fun e2 => C.toPackageObject e2) context [] (pkgKey r) r ?_
      ⟨e, he, show pkgKey (C.toPackageObject e) = pkgKey r by rw [hv]⟩
    intro e2 _ hke
    exact pkgKey_inj (hclean e2 ‹e2 ∈ context›) (hv ▸ hclean e he) hke

theorem clean_initialRootsOf {C : Collaborator} {context : List PkgRef}
    (hclean : ∀ e ∈ context, CleanPkg (C.toPackageObject e)) :
    ∀ r ∈ initialRootsOf C context, CleanPkg r := by
  intro r hr
  rcases (mem_initialRootsOf hclean r).mp hr with ⟨e, he, hv⟩
  exact hv ▸ hclean e he

theorem getA_rootClosuresOf {C : Collaborator} {skipEx : Bool} {fuel : Nat}
    {context : List PkgRef}
    (hclean : ∀ e ∈ context, CleanPkg (C.toPackageObject e))
    {r : Pkg} (hr : r ∈ initialRootsOf C context) :
    getA (rootClosuresOf C skipEx fuel context) (pkgKey r)
      = some (collectDependencies C skipEx fuel r) := by
  unfold rootClosuresOf
  refine getA_foldSetA_self pkgKey (fun r2 => collectDependencies C skipEx fuel r2)
    (initialRootsOf C context) [] (pkgKey r) _ ?_ ⟨r, hr, rfl⟩
  intro r2 hr2 hke
  rw [pkgKey_inj (clean_initialRootsOf hclean r2 hr2) (clean_initialRootsOf hclean r hr) hke]

theorem getA_rootClosuresOf_cases {C : Collaborator} {skipEx : Bool} {fuel : Nat}
    {context : List PkgRef} {k : Str} {cl : List Str}
    (h : getA (rootClosuresOf C skipEx fuel context) k = some cl) :
    ∃ r ∈ initialRootsOf C context, pkgKey r = k ∧
      cl = collectDependencies C skipEx fuel r := by
  rcases getA_foldSetA_cases pkgKey (fun r2 => collectDependencies C skipEx fuel r2)
      (initialRootsOf C context) [] k cl h with h2 | ⟨r, hr, hke, hv⟩
  · exact absurd h2 (by simp [getA])
  · exact ⟨r, hr, hke, hv.symm⟩

theorem getA_isSome_foldSetA_of_mem (key : β → Str) (val : β → α) :
    ∀ (l : List β) (m : List (Str × α)) {k : Str}, (∃ x ∈ l, key x = k) →
      (getA (l.foldl (fun m2 x => setA m2 (key x) (val x)) m) k).isSome := by
  intro l
  induction l with
  | nil =>
    intro m k hk
    rcases hk with ⟨x, hx, _⟩
    exact absurd hx (List.not_mem_nil x)
  | cons x t ih =>
    intro m k hk
    rcases hk with ⟨y, hy, hky⟩
    rcases List.mem_cons.mp hy with heq | hy2
    · subst heq
      refine getA_isSome_foldSetA key val t (setA m (key y) (val y)) ?_
      rw [hky, getA_setA_self]
      rfl
    · exact ih _ ⟨y, hy2, hky⟩

theorem keyToPkgOf_values {C : Collaborator} {skipEx : Bool} {fuel : Nat}
    {context : List PkgRef} :
    ∀ kv ∈ keyToPkgOf C skipEx fuel context, kv.2 = splitKeyPkg kv.1 := by
  unfold keyToPkgOf
  refine foldl_preserve (fun (m : List (Str × Pkg)) => ∀ kv ∈ m, kv.2 = splitKeyPkg kv.1)
    (initialRootsOf C context) [] (by simp) ?_
  intro c r hc _
  refine foldl_preserve (fun (m : List (Str × Pkg)) => ∀ kv ∈ m, kv.2 = splitKeyPkg kv.1)
    (collectDependencies C skipEx fuel r) c hc ?_
  intro c2 k hc2 _ kv hkv
  rcases mem_setA_elim hkv with h | h
  · exact hc2 kv h
  · rw [h]

theorem getA_keyToPkgOf_isSome {C : Collaborator} {skipEx : Bool} {fuel : Nat}
    {context : List PkgRef} {r : Pkg} {k : Str}
    (hr : r ∈ initialRootsOf C context)
    (hk : k ∈ collectDependencies C skipEx fuel r) :
    (getA (keyToPkgOf C skipEx fuel context) k).isSome := by
  unfold keyToPkgOf
  have main : ∀ (roots : List Pkg) (m : List (Str × Pkg)),
      ((getA m k).isSome ∨ ∃ r2 ∈ roots, k ∈ collectDependencies C skipEx fuel r2) →
      (getA (roots.foldl (fun m2 r2 => (collectDependencies C skipEx fuel r2).foldl
        (fun m3 k2 => setA m3 k2 (splitKeyPkg k2)) m2) m) k).isSome := by
    intro roots
    induction roots with
    | nil =>
      intro m h
      rcases h with h | ⟨r2, hr2, _⟩
      · exact h
      · exact absurd hr2 (List.not_mem_nil r2)
    | cons r2 t ih =>
      intro m h
      rcases h with h | ⟨r3, hr3, hk3⟩
      · exact ih _ (Or.inl (getA_isSome_foldSetA (fun k2 => k2) splitKeyPkg _ m h))
      · rcases List.mem_cons.mp hr3 with heq | hr4
        · subst heq
          exact ih _ (Or.inl (getA_isSome_foldSetA_of_mem (fun k2 => k2) splitKeyPkg
            _ m ⟨k, hk3, rfl⟩))
        · exact ih _ (Or.inr ⟨r3, hr4, hk3⟩)
  exact main (initialRootsOf C context) [] (Or.inr ⟨r, hr, hk⟩)

theorem getA_keyToPkgOf_some {C : Collaborator} {skipEx : Bool} {fuel : Nat}
    {context : List PkgRef} {r : Pkg} {k : Str}
    (hr : r ∈ initialRootsOf C context)
    (hk : k ∈ collectDependencies C skipEx fuel r) :
    getA (keyToPkgOf C skipEx fuel context) k = some (splitKeyPkg k) := by
  have hs := getA_keyToPkgOf_isSome hr hk
  cases hg : getA (keyToPkgOf C skipEx fuel context) k with
  | none => rw [hg] at hs; exact absurd hs (by simp)
  | some v =>
    have hv : v = splitKeyPkg k := keyToPkgOf_values (k, v) (getA_mem_pair hg)
    rw [hv]

theorem minimalRootsOf_subset {C : Collaborator} {skipEx : Bool} {fuel : Nat}
    {context : List PkgRef} :
    ∀ r ∈ minimalRootsOf C skipEx fuel context, r ∈ initialRootsOf C context := by
  intro r hr
  unfold minimalRootsOf at hr
  split at hr
  · cases hsp : sortPackages (initialRootsOf C context) with
    | nil =>
      rw [hsp] at hr
      exact absurd hr (List.not_mem_nil r)
    | cons r2 t =>
      rw [hsp] at hr
      have he : r = r2 := by simpa using hr
      have hmem : r ∈ sortPackages (initialRootsOf C context) := by
        rw [hsp, he]
        exact List.mem_cons_self _ _
      exact (jsSort_mem sortPackagesLe _ r).mp hmem
  · exact List.mem_of_mem_filter hr

theorem finalMapOf_values {C : Collaborator} {skipEx : Bool} {fuel : Nat}
    {context : List PkgRef} :
    ∀ kv ∈ finalMapOf C skipEx fuel context, kv.2 = splitKeyPkg kv.1 := by
  unfold finalMapOf
  refine foldl_preserve (fun (m : List (Str × Pkg)) => ∀ kv ∈ m, kv.2 = splitKeyPkg kv.1)
    (minimalRootsOf C skipEx fuel context) [] (by simp) ?_
  intro c mr hc _
  cases hg : getA (rootClosuresOf C skipEx fuel context) (pkgKey mr) with
  | none => exact hc
  | some closure =>
    refine foldl_preserve (fun (m : List (Str × Pkg)) => ∀ kv ∈ m, kv.2 = splitKeyPkg kv.1)
      closure c hc ?_
    intro c2 k hc2 _ kv hkv
    cases hg2 : getA (keyToPkgOf C skipEx fuel context) k with
    | none =>
      rw [hg2] at hkv
      exact hc2 kv hkv
    | some pobj =>
      rw [hg2] at hkv
      rcases mem_setA_elim hkv with h | h
      · exact hc2 kv h
      · rw [h]
        exact keyToPkgOf_values (k, pobj) (getA_mem_pair hg2)

theorem finalMapOf_keyShape {C : Collaborator} {skipEx : Bool} {fuel : Nat}
    {context : List PkgRef} :
    ∀ kv ∈ finalMapOf C skipEx fuel context,
      ∃ r ∈ initialRootsOf C context, kv.1 ∈ collectDependencies C skipEx fuel r := by
  unfold finalMapOf
  refine foldl_preserve (fun (m : List (Str × Pkg)) => ∀ kv ∈ m,
      ∃ r ∈ initialRootsOf C context, kv.1 ∈ collectDependencies C skipEx fuel r)
    (minimalRootsOf C skipEx fuel context) [] (by simp) ?_
  intro c mr hc _
  cases hg : getA (rootClosuresOf C skipEx fuel context) (pkgKey mr) with
  | none => exact hc
  | some closure =>
    rcases getA_rootClosuresOf_cases hg with ⟨r0, hr0, _, hcl⟩
    have main : ∀ (cl2 : List Str), (∀ k ∈ cl2, k ∈ collectDependencies C skipEx fuel r0) →
        ∀ (m : List (Str × Pkg)), (∀ kv ∈ m,
          ∃ r ∈ initialRootsOf C context, kv.1 ∈ collectDependencies C skipEx fuel r) →
        ∀ kv ∈ cl2.foldl (fun m2 k =>
            match getA (keyToPkgOf C skipEx fuel context) k with
            | some pobj => setA m2 k pobj
            | none => m2) m,
          ∃ r ∈ initialRootsOf C context, kv.1 ∈ collectDependencies C skipEx fuel r := by
      intro cl2
      induction cl2 with
      | nil =>
        intro _ m hm kv hkv
        exact hm kv hkv
      | cons k t ih =>
        intro hsub m hm
        refine ih (fun k2 hk2 => hsub k2 (List.mem_cons_of_mem _ hk2)) _ ?_
        cases hg2 : getA (keyToPkgOf C skipEx fuel context) k with
        | none =>
          beta_reduce
          rw [hg2]
          exact hm
        | some pobj =>
          beta_reduce
          rw [hg2]
          intro kv hkv
          rcases mem_setA_elim hkv with h | h
          · exact hm kv h
          · rw [h]
            exact ⟨r0, hr0, hsub k (List.mem_cons_self _ _)⟩
    refine main closure (fun k hk => ?_) c hc
    rw [← hcl]
    exact hk

theorem finalMapOf_keysNodup {C : Collaborator} {skipEx : Bool} {fuel : Nat}
    {context : List PkgRef} :
    (keysA (finalMapOf C skipEx fuel context)).Nodup := by
  unfold finalMapOf
  refine foldl_preserve (fun (m : List (Str × Pkg)) => (keysA m).Nodup)
    (minimalRootsOf C skipEx fuel context) [] (by simp [keysA]) ?_
  intro c mr hc _
  cases hg : getA (rootClosuresOf C skipEx fuel context) (pkgKey mr) with
  | none => exact hc
  | some closure =>
    refine foldl_preserve (fun (m : List (Str × Pkg)) => (keysA m).Nodup) closure c hc ?_
    intro c2 k hc2 _
    cases hg2 : getA (keyToPkgOf C skipEx fuel context) k with
    | none => exact hc2
    | some pobj => exact keysA_setA_nodup _ _ hc2

theorem getA_finalMapOf_isSome {C : Collaborator} {skipEx : Bool} {fuel : Nat}
    {context : List PkgRef} {mr : Pkg} {k : Str}
    (hclean : ∀ e ∈ context, CleanPkg (C.toPackageObject e))
    (hmr : mr ∈ minimalRootsOf C skipEx fuel context)
    (hk : k ∈ collectDependencies C skipEx fuel mr) :
    (getA (finalMapOf C skipEx fuel context) k).isSome := by
  have hmri : mr ∈ initialRootsOf C context := minimalRootsOf_subset mr hmr
  have hKT : (getA (keyToPkgOf C skipEx fuel context) k).isSome =  true :=
    getA_keyToPkgOf_isSome hmri hk
  have inner_sets : ∀ (cl : List Str) (m : List (Str × Pkg)),
      (k ∈ cl ∨ (getA m k).isSome = true) →
      (getA (cl.foldl (fun m3 k2 =>
        match getA (keyToPkgOf C skipEx fuel context) k2 with
        | some pobj => setA m3 k2 pobj
        | none => m3) m) k).isSome = true := by
    intro cl
    induction cl with
    | nil =>
      intro m h
      rcases h with h | h
      · exact absurd h (List.not_mem_nil k)
      · exact h
    | cons k2 t ih =>
      intro m h
      rcases h with h | h
      · rcases List.mem_cons.mp h with heq | h2
        · subst heq
          refine ih _ (Or.inr ?_)
          beta_reduce
          cases hg2 : getA (keyToPkgOf C skipEx fuel context) k with
          | none =>
            rw [hg2] at hKT
            exact absurd hKT (by simp)
          | some pobj =>
            show (getA (setA m k pobj) k).isSome = true
            rw [getA_setA_self]
            rfl
        · exact ih _ (Or.inl h2)
      · refine ih _ (Or.inr ?_)
        beta_reduce
        cases hg2 : getA (keyToPkgOf C skipEx fuel context) k2 with
        | none => exact h
        | some pobj => exact getA_isSome_setA k2 pobj h
  have step_mono : ∀ (m : List (Str × Pkg)) (mr2 : Pkg), (getA m k).isSome = true →
      (getA (match getA (rootClosuresOf C skipEx fuel context) (pkgKey mr2) with
        | some closure => closure.foldl (fun m3 k2 =>
            match getA (keyToPkgOf C skipEx fuel context) k2 with
            | some pobj => setA m3 k2 pobj
            | none => m3) m
        | none => m) k).isSome = true := by
    intro m mr2 h
    cases hg : getA (rootClosuresOf C skipEx fuel context) (pkgKey mr2) with
    | none => exact h
    | some closure => exact inner_sets closure m (Or.inr h)
  have main : ∀ (mrs : List Pkg) (m : List (Str × Pkg)),
      ((getA m k).isSome = true ∨ ∃ mr2 ∈ mrs, mr2 ∈ initialRootsOf C context ∧
        k ∈ collectDependencies C skipEx fuel mr2) →
      (getA (mrs.foldl (fun m2 mr2 =>
        match getA (rootClosuresOf C skipEx fuel context) (pkgKey mr2) with
        | some closure => closure.foldl (fun m3 k2 =>
            match getA (keyToPkgOf C skipEx fuel context) k2 with
            | some pobj => setA m3 k2 pobj
            | none => m3) m2
        | none => m2) m) k).isSome = true := by
    intro mrs
    induction mrs with
    | nil =>
      intro m h
      rcases h with h | ⟨mr2, hmr2, _⟩
      · exact h
      · exact absurd hmr2 (List.not_mem_nil mr2)
    | cons mr2 t ih =>
      intro m h
      rcases h with h | ⟨mr3, hmr3, hinit3, hk3⟩
      · exact ih _ (Or.inl (step_mono m mr2 h))
      · rcases List.mem_cons.mp hmr3 with heq | h3
        · subst heq
          refine ih _ (Or.inl ?_)
          beta_reduce
          rw [getA_rootClosuresOf hclean hinit3]
          exact inner_sets _ m (Or.inl hk3)
        · exact ih _ (Or.inr ⟨mr3, h3, hinit3, hk3⟩)
  exact main (minimalRootsOf C skipEx fuel context) []
    (Or.inr ⟨mr, hmr, hmri, hk⟩)

theorem mem_contextPackages_of {C : Collaborator} {skipEx : Bool} {fuel : Nat}
    {context : List PkgRef} {U : List Pkg}
    (hU : ∀ p ∈ U, CleanPkg p)
    (hroots : ∀ e ∈ context, C.toPackageObject e ∈ U)
    (hclosed : ∀ p ∈ U, ∀ d ∈ effDeps C skipEx p, d ∈ U)
    (hfuel : (U.map pkgKey).toFinset.card < fuel)
    {mr q : Pkg} (hmr : mr ∈ minimalRootsOf C skipEx fuel context)
    (hreach : Reaches (effDeps C skipEx) mr q) :
    q ∈ getContextPackages (loadContext C skipEx fuel context) := by
  have hclean : ∀ e ∈ context, CleanPkg (C.toPackageObject e) :=
    fun e he => hU _ (hroots e he)
  have hmri := minimalRootsOf_subset mr hmr
  have hmrU : mr ∈ U := by
    rcases (mem_initialRootsOf hclean mr).mp hmri with ⟨e, he, hv⟩
    exact hv ▸ hroots e he
  have hqU : q ∈ U := Reaches_good (fun a b ha hb => hclosed a ha b hb) hmrU hreach
  have hkmem : pkgKey q ∈ collectDependencies C skipEx fuel mr :=
    (collectDependencies_exact C skipEx hU hclosed hfuel hmrU (pkgKey q)).mpr
      ⟨q, hreach, rfl⟩
  have hs := getA_finalMapOf_isSome hclean hmr hkmem
  cases hg : getA (finalMapOf C skipEx fuel context) (pkgKey q) with
  | none =>
    rw [hg] at hs
    exact absurd hs (by simp)
  | some v =>
    have hv : v = splitKeyPkg (pkgKey q) := finalMapOf_values _ (getA_mem_pair hg)
    have hvq : v = q := by rw [hv, splitKeyPkg_pkgKey (hU q hqU)]
    have hmem : q ∈ valuesA (finalMapOf C skipEx fuel context) :=
      hvq ▸ getA_mem_valuesA hg
    rw [loadContext_eq]
    show q ∈ jsSort sortPackagesLe (valuesA (finalMapOf C skipEx fuel context))
    exact (jsSort_mem sortPackagesLe _ q).mpr hmem

theorem nodup_contextPackages_of {C : Collaborator} {skipEx : Bool} {fuel : Nat}
    {context : List PkgRef} {U : List Pkg}
    (hU : ∀ p ∈ U, CleanPkg p)
    (hroots : ∀ e ∈ context, C.toPackageObject e ∈ U)
    (hclosed : ∀ p ∈ U, ∀ d ∈ effDeps C skipEx p, d ∈ U)
    (hfuel : (U.map pkgKey).toFinset.card < fuel) :
    (getContextPackages (loadContext C skipEx fuel context)).Nodup := by
  have hclean : ∀ e ∈ context, CleanPkg (C.toPackageObject e) :=
    fun e he => hU _ (hroots e he)
  have hpair : ∀ kv ∈ finalMapOf C skipEx fuel context, pkgKey kv.2 = kv.1 := by
    intro kv hkv
    rcases finalMapOf_keyShape kv hkv with ⟨r, hr, hk⟩
    have hrU : r ∈ U := by
      rcases (mem_initialRootsOf hclean r).mp hr with ⟨e, he, hv⟩
      exact hv ▸ hroots e he
    rcases (collectDependencies_exact C skipEx hU hclosed hfuel hrU kv.1).mp hk
      with ⟨q, hq, he⟩
    have hqU : q ∈ U :=
      Reaches_good (fun a b ha hb => hclosed a ha b hb) hrU hq
    rw [finalMapOf_values kv hkv, he, splitKeyPkg_pkgKey (hU q hqU)]
  have hmnd : (finalMapOf C skipEx fuel context).Nodup :=
    List.Nodup.of_map Prod.fst finalMapOf_keysNodup
  have hvnd : (valuesA (finalMapOf C skipEx fuel context)).Nodup := by
    refine List.Nodup.map_on ?_ hmnd
    intro x hx y hy he
    have h1 : x.1 = y.1 := by
      rw [← hpair x hx, ← hpair y hy, he]
    exact Prod.ext_iff.mpr ⟨h1, he⟩
  rw [loadContext_eq]
  show (jsSort sortPackagesLe (valuesA (finalMapOf C skipEx fuel context))).Nodup
  exact (List.Perm.nodup_iff (jsSort_perm sortPackagesLe _)).mpr hvnd

theorem exists_maximal [DecidableEq α] (gt : α → α → Prop) :
    ∀ (l : List α), (∀ a ∈ l, ∀ b ∈ l, ∀ c ∈ l, gt a b → gt b c → gt a c) →
      (∀ a ∈ l, ¬ gt a a) →
      ∀ x ∈ l, ∃ m ∈ l, (m = x ∨ gt m x) ∧ ∀ a ∈ l, ¬ gt a m := by
  have main : ∀ (n : Nat) (l : List α), l.length ≤ n →
      (∀ a ∈ l, ∀ b ∈ l, ∀ c ∈ l, gt a b → gt b c → gt a c) →
      (∀ a ∈ l, ¬ gt a a) →
      ∀ x ∈ l, ∃ m ∈ l, (m = x ∨ gt m x) ∧ ∀ a ∈ l, ¬ gt a m := by
    intro n
    induction n with
    | zero =>
      intro l hl _ _ x hx
      rw [List.length_eq_zero.mp (Nat.le_zero.mp hl)] at hx
      exact absurd hx (List.not_mem_nil x)
    | succ n ih =>
      intro l hl htrans hirr x hx
      by_cases hex : ∃ a ∈ l, gt a x
      · rcases hex with ⟨a, ha, hax⟩
        have hane : a ≠ x := fun he => hirr x hx (he ▸ hax)
        have hlen : (l.erase x).length ≤ n := by
          rw [List.length_erase_of_mem hx]
          omega
        have hsub : ∀ b ∈ l.erase x, b ∈ l := fun b hb => List.mem_of_mem_erase hb
        have ha2 : a ∈ l.erase x := (List.mem_erase_of_ne hane).mpr ha
        obtain ⟨m, hm2, hma, hmax2⟩ := ih (l.erase x) hlen
          (fun a2 ha2 b hb c hc => htrans a2 (hsub _ ha2) b (hsub _ hb) c (hsub _ hc))
          (fun a2 ha2 => hirr a2 (hsub _ ha2)) a ha2
        have hml : m ∈ l := hsub _ hm2
        have hgmx : gt m x := by
          rcases hma with heq | hgma
          · exact heq ▸ hax
          · exact htrans m hml a ha x hx hgma hax
        refine ⟨m, hml, Or.inr hgmx, ?_⟩
        intro b hb hbm
        by_cases hbx : b = x
        · subst hbx
          exact hirr b hb (htrans b hb m hml b hb hbm hgmx)
        · exact hmax2 b ((List.mem_erase_of_ne hbx).mpr hb) hbm
      · push_neg at hex
        exact ⟨x, hx, Or.inl rfl, hex⟩
  intro l htrans hirr x hx
  exact main l.length l (le_refl _) htrans hirr x hx

theorem isRedundantIn_iff {C : Collaborator} {skipEx : Bool} {fuel : Nat}
    {context : List PkgRef} {U : List Pkg}
    (hU : ∀ p ∈ U, CleanPkg p)
    (hroots : ∀ e ∈ context, C.toPackageObject e ∈ U)
    (hclosed : ∀ p ∈ U, ∀ d ∈ effDeps C skipEx p, d ∈ U)
    (hfuel : (U.map pkgKey).toFinset.card < fuel)
    {r : Pkg} (hr : r ∈ initialRootsOf C context) :
    isRedundantIn C skipEx fuel context (pkgKey r) = true ↔
      ∃ r2 ∈ initialRootsOf C context, r2 ≠ r ∧ Reaches (effDeps C skipEx) r2 r := by
  have hclean : ∀ e ∈ context, CleanPkg (C.toPackageObject e) :=
    fun e he => hU _ (hroots e he)
  have hinU : ∀ p ∈ initialRootsOf C context, p ∈ U := by
    intro p hp
    rcases (mem_initialRootsOf hclean p).mp hp with ⟨e, he, hv⟩
    exact hv ▸ hroots e he
  unfold isRedundantIn
  rw [List.any_eq_true]
  constructor
  · rintro ⟨rk, hrk, hpred⟩
    rcases List.mem_map.mp hrk with ⟨r2, hr2, hke⟩
    subst hke
    rw [getA_rootClosuresOf hclean hr2] at hpred
    rw [Bool.and_eq_true] at hpred
    obtain ⟨hne, hmem⟩ := hpred
    have hne2 : pkgKey r2 ≠ pkgKey r := by simpa using hne
    have hmem2 : pkgKey r ∈ collectDependencies C skipEx fuel r2 := by simpa using hmem
    rcases (collectDependencies_exact C skipEx hU hclosed hfuel (hinU r2 hr2)
        (pkgKey r)).mp hmem2 with ⟨q, hq, he⟩
    have hqU : q ∈ U :=
      Reaches_good (fun a b ha hb => hclosed a ha b hb) (hinU r2 hr2) hq
    have hqr : q = r := pkgKey_inj (hU q hqU) (hU r (hinU r hr)) he.symm
    refine ⟨r2, hr2, ?_, hqr ▸ hq⟩
    intro he2
    exact hne2 (he2 ▸ rfl)
  · rintro ⟨r2, hr2, hne, hreach⟩
    refine ⟨pkgKey r2, List.mem_map_of_mem _ hr2, ?_⟩
    rw [getA_rootClosuresOf hclean hr2, Bool.and_eq_true]
    constructor
    · simp only [ne_eq, decide_not, Bool.not_eq_eq_eq_not, Bool.not_true, decide_eq_false_iff_not]
      intro he
      exact hne (pkgKey_inj (hU r2 (hinU r2 hr2)) (hU r (hinU r hr)) he)
    · have hmem : pkgKey r ∈ collectDependencies C skipEx fuel r2 :=
        (collectDependencies_exact C skipEx hU hclosed hfuel (hinU r2 hr2)
          (pkgKey r)).mpr ⟨r, hreach, rfl⟩
      simpa using hmem

theorem exists_minimal_root {C : Collaborator} {skipEx : Bool} {fuel : Nat}
    {context : List PkgRef} {U : List Pkg}
    (hU : ∀ p ∈ U, CleanPkg p)
    (hroots : ∀ e ∈ context, C.toPackageObject e ∈ U)
    (hclosed : ∀ p ∈ U, ∀ d ∈ effDeps C skipEx p, d ∈ U)
    (hfuel : (U.map pkgKey).toFinset.card < fuel)
    (hnomut : ∀ a ∈ initialRootsOf C context, ∀ b ∈ initialRootsOf C context,
      a ≠ b → ¬(Reaches (effDeps C skipEx) a b ∧ Reaches (effDeps C skipEx) b a))
    {r : Pkg} (hr : r ∈ initialRootsOf C context) :
    ∃ mr ∈ minimalRootsOf C skipEx fuel context, Reaches (effDeps C skipEx) mr r := by
  have htrans : ∀ a ∈ initialRootsOf C context, ∀ b ∈ initialRootsOf C context,
      ∀ c ∈ initialRootsOf C context,
      (Reaches (effDeps C skipEx) a b ∧ a ≠ b) →
      (Reaches (effDeps C skipEx) b c ∧ b ≠ c) →
      (Reaches (effDeps C skipEx) a c ∧ a ≠ c) := by
    rintro a ha b hb c hc ⟨hab, hne1⟩ ⟨hbc, _⟩
    refine ⟨hab.trans hbc, ?_⟩
    intro hac
    subst hac
    exact hnomut a ha b hb hne1 ⟨hab, hbc⟩
  have hirr : ∀ a ∈ initialRootsOf C context,
      ¬ (Reaches (effDeps C skipEx) a a ∧ a ≠ a) :=
    fun a _ h => h.2 rfl
  obtain ⟨m, hm, hma, hmax⟩ := exists_maximal
    (fun a b => Reaches (effDeps C skipEx) a b ∧ a ≠ b)
    (initialRootsOf C context) htrans hirr r hr
  have hreach : Reaches (effDeps C skipEx) m r := by
    rcases hma with heq | ⟨h, _⟩
    · exact heq ▸ Relation.ReflTransGen.refl
    · exact h
  refine ⟨m, ?_, hreach⟩
  have hnotred : isRedundantIn C skipEx fuel context (pkgKey m) = false := by
    cases hred : isRedundantIn C skipEx fuel context (pkgKey m) with
    | false => rfl
    | true =>
      exfalso
      rcases (isRedundantIn_iff hU hroots hclosed hfuel hm).mp hred
        with ⟨r2, hr2, hne2, hre2⟩
      exact hmax r2 hr2 ⟨hre2, hne2⟩
  have hm0 : m ∈ minimalRoots0Of C skipEx fuel context := by
    unfold minimalRoots0Of
    rw [List.mem_filter]
    refine ⟨hm, ?_⟩
    rw [hnotred]
    rfl
  unfold minimalRootsOf
  split
  · rename_i hcond
    rw [Bool.and_eq_true] at hcond
    obtain ⟨h1, _⟩ := hcond
    cases hl : minimalRoots0Of C skipEx fuel context with
    | nil =>
      rw [hl] at hm0
      exact absurd hm0 (List.not_mem_nil m)
    | cons a t =>
      rw [hl] at h1
      exact absurd h1 (by simp [List.isEmpty])
  · exact hm0

/-- Packages of the C1 counterexample: two roots that contain each other,
and one isolated root. -/
def rA : Pkg := ⟨lit "a", lit "1"⟩

/-- Second mutually-contained root of the C1 counterexample. -/
def rB : Pkg := ⟨lit "b", lit "1"⟩

/-- Isolated root of the C1 counterexample. -/
def rC : Pkg := ⟨lit "c", lit "1"⟩

/-- Collaborator of the C1 counterexample: package a depends on b and b
depends on a, so each root is redundant through the other. -/
def Ccex : Collaborator :=
  ⟨fun e => match e with
    | PkgRef.obj p => p
    | PkgRef.str s => splitKeyPkg s,
   fun p => if p = rA then [rB] else if p = rB then [rA] else [],
   fun _ => []⟩

/-- C1 counterexample: with context [a, b, c] where a and b are mutually
contained in each other's closures, the loaded scope keeps only c: the
root a is reachable from a root (itself) yet absent from
getContextPackages, refuting the original claim's "even when some roots
are mutually contained" clause. -/
theorem c1_counterexample :
    Reaches (effDeps Ccex false) rA rB ∧ Reaches (effDeps Ccex false) rB rA ∧
    Ccex.toPackageObject (PkgRef.obj rA) = rA ∧
    rA ∉ getContextPackages (loadContext Ccex false 5
      [PkgRef.obj rA, PkgRef.obj rB, PkgRef.obj rC]) :=
  ⟨Relation.ReflTransGen.single (by decide),
   Relation.ReflTransGen.single (by decide),
   rfl,
   by decide⟩

/-- C1 (amended): over a well-formed finite package universe (hash-free
ids and versions, closed under effective dependency edges, with fuel
exceeding the number of distinct package keys), getContextPackages
returns a duplicate-free sequence; and provided no two distinct roots are
mutually contained in each other's closures, it contains every package
reachable by dependency links from every originally supplied root.  The
mutual-containment case of the original claim is false: see the
counterexample. -/
theorem c1_theorem
    (C : Collaborator) (skipEx : Bool) (fuel : Nat) (context : List PkgRef)
    (U : List Pkg)
    (hU : ∀ p ∈ U, CleanPkg p)
    (hroots : ∀ e ∈ context, C.toPackageObject e ∈ U)
    (hclosed : ∀ p ∈ U, ∀ d ∈ effDeps C skipEx p, d ∈ U)
    (hfuel : (U.map pkgKey).toFinset.card < fuel)
    (hnomut : ∀ e ∈ context, ∀ e2 ∈ context,
      C.toPackageObject e ≠ C.toPackageObject e2 →
      ¬(Reaches (effDeps C skipEx) (C.toPackageObject e) (C.toPackageObject e2) ∧
        Reaches (effDeps C skipEx) (C.toPackageObject e2) (C.toPackageObject e))) :
    (getContextPackages (loadContext C skipEx fuel context)).Nodup ∧
    ∀ e ∈ context, ∀ q, Reaches (effDeps C skipEx) (C.toPackageObject e) q →
      q ∈ getContextPackages (loadContext C skipEx fuel context) := by
  have hclean : ∀ e ∈ context, CleanPkg (C.toPackageObject e) :=
    fun e he => hU _ (hroots e he)
  refine ⟨nodup_contextPackages_of hU hroots hclosed hfuel, ?_⟩
  intro e he q hq
  have hrinit : C.toPackageObject e ∈ initialRootsOf C context :=
    (mem_initialRootsOf hclean _).mpr ⟨e, he, rfl⟩
  have hnomut2 : ∀ a ∈ initialRootsOf C context, ∀ b ∈ initialRootsOf C context,
      a ≠ b → ¬(Reaches (effDeps C skipEx) a b ∧ Reaches (effDeps C skipEx) b a) := by
    intro a ha b hb hne
    rcases (mem_initialRootsOf hclean a).mp ha with ⟨ea, hea, hva⟩
    rcases (mem_initialRootsOf hclean b).mp hb with ⟨eb, heb, hvb⟩
    subst hva
    subst hvb
    exact hnomut ea hea eb heb hne
  obtain ⟨mr, hmr, hmre⟩ := exists_minimal_root hU hroots hclosed hfuel hnomut2 hrinit
  exact mem_contextPackages_of hU hroots hclosed hfuel hmr (hmre.trans hq)

/-- Root package of the C1 witness. -/
def pW1 : Pkg := ⟨lit "p", lit "1"⟩

/-- Dependency package of the C1 witness. -/
def pW2 : Pkg := ⟨lit "q", lit "1"⟩

/-- Collaborator of the C1 witness: a single root with one dependency. -/
def CW : Collaborator :=
  ⟨fun e => match e with
    | PkgRef.obj p => p
    | PkgRef.str s => splitKeyPkg s,
   fun p => if p = pW1 then [pW2] else [],
   fun _ => []⟩

/-- C1 witness: the amended theorem applied to a concrete one-root,
two-package universe. -/
theorem c1_witness :
    (getContextPackages (loadContext CW false 3 [PkgRef.obj pW1])).Nodup ∧
    ∀ e ∈ [PkgRef.obj pW1], ∀ q, Reaches (effDeps CW false) (CW.toPackageObject e) q →
      q ∈ getContextPackages (loadContext CW false 3 [PkgRef.obj pW1]) :=
  c1_theorem CW false 3 [PkgRef.obj pW1] [pW1, pW2]
    (by decide) (by decide) (by decide) (by decide)
    (by
      intro e he e2 he2 hne
      rw [List.mem_singleton] at he he2
      subst he
      subst he2
      exact absurd rfl hne)
